import Mathlib

/-!
Verification development for the svg-path-commander path library.

The repository ships one implementation file, `src/process/transformPath.ts`;
the remaining modules are present only as TypeScript declaration files, so
those collaborators (`pathToAbsolute`, `normalizePath`, the scanner, the
optimizer, the serializer, `projection2d`, `fixArc`, `segmentToCubic`,
`getSVGMatrix`, the external `CSSMatrix` provider) are modelled from the
specification, as marked in the doc comment of each such definition.

Coordinates are modelled as rationals: the claims under study are structural
(commands, arities, copying, short-circuits, string lengths under exact
rounding), not about binary floating point.
-/

set_option autoImplicit false

namespace SvgPath

/-- One path segment: a command letter (case marks absolute/relative) and its
numeric parameters, mirroring a `pathSegment` array `[cmd, v0, v1, ...]`. -/
structure Seg where
  cmd : Char
  params : List ℚ
deriving DecidableEq, Repr

/-- A `pathArray`: an ordered list of segments. -/
abbrev Path := List Seg

/-- Per-command parameter counts, from `src/parser/paramsCount` (keyed by the
lowercase command letter; the declaration file lists keys a c h l m r q s t v z). -/
def paramsCount (ch : Char) : Nat :=
  match ch with
  | 'a' => 7
  | 'c' => 6
  | 'h' => 1
  | 'l' => 2
  | 'm' => 2
  | 'r' => 4
  | 'q' => 4
  | 's' => 4
  | 't' => 2
  | 'v' => 1
  | 'z' => 0
  | _ => 0

/-- The valid command letters of the grammar (both cases). -/
def validCmd (ch : Char) : Prop :=
  ch ∈ (['M', 'm', 'L', 'l', 'H', 'h', 'V', 'v', 'C', 'c',
         'S', 's', 'Q', 'q', 'T', 't', 'A', 'a', 'Z', 'z'] : List Char)

instance (ch : Char) : Decidable (validCmd ch) := by
  unfold validCmd; infer_instance

/-- Add the running point to an even run of coordinate values (a list of
x,y pairs), leaving a trailing odd value unchanged. -/
def addPairXY (x y : ℚ) : List ℚ → List ℚ
  | a :: b :: rest => (a + x) :: (b + y) :: addPairXY x y rest
  | l => l

/-- Last coordinate pair of a parameter list, with fallbacks for short lists. -/
def lastPoint (ps : List ℚ) (px py : ℚ) : ℚ × ℚ :=
  (ps.getD (ps.length - 2) px, ps.getD (ps.length - 1) py)

/-- Running state of the absolute-form converter: current point `(x, y)` and
the active subpath's start point `(mx, my)`. -/
structure AbsState where
  x : ℚ
  y : ℚ
  mx : ℚ
  my : ℚ
deriving DecidableEq, Repr

/-- Modelled from the spec: one step of `ToAbsolute`
(`src/convert/pathToAbsolute` is declared but not under `src/`). Per section
4.2, the converter "tracks a running current point and the active subpath's
start point; rewrites relative coordinates by adding the running point; a `Z`
resets the running point to the subpath start". Only the two endpoint values
of an arc are coordinates; `H`/`V` carry a single coordinate. -/
def toAbsoluteSegment (st : AbsState) (s : Seg) : Seg × AbsState :=
  if s.cmd = 'M' then
    let e := lastPoint s.params st.x st.y
    (s, ⟨e.1, e.2, e.1, e.2⟩)
  else if s.cmd = 'm' then
    let ps := addPairXY st.x st.y s.params
    let e := lastPoint ps st.x st.y
    (⟨'M', ps⟩, ⟨e.1, e.2, e.1, e.2⟩)
  else if s.cmd = 'L' ∨ s.cmd = 'C' ∨ s.cmd = 'S' ∨ s.cmd = 'Q' ∨ s.cmd = 'T' then
    let e := lastPoint s.params st.x st.y
    (s, ⟨e.1, e.2, st.mx, st.my⟩)
  else if s.cmd = 'l' ∨ s.cmd = 'c' ∨ s.cmd = 's' ∨ s.cmd = 'q' ∨ s.cmd = 't' then
    let ps := addPairXY st.x st.y s.params
    let e := lastPoint ps st.x st.y
    (⟨s.cmd.toUpper, ps⟩, ⟨e.1, e.2, st.mx, st.my⟩)
  else if s.cmd = 'H' then
    (s, ⟨s.params.getD (s.params.length - 1) st.x, st.y, st.mx, st.my⟩)
  else if s.cmd = 'h' then
    let ps := s.params.map (· + st.x)
    (⟨'H', ps⟩, ⟨ps.getD (ps.length - 1) st.x, st.y, st.mx, st.my⟩)
  else if s.cmd = 'V' then
    (s, ⟨st.x, s.params.getD (s.params.length - 1) st.y, st.mx, st.my⟩)
  else if s.cmd = 'v' then
    let ps := s.params.map (· + st.y)
    (⟨'V', ps⟩, ⟨st.x, ps.getD (ps.length - 1) st.y, st.mx, st.my⟩)
  else if s.cmd = 'A' then
    let e := lastPoint s.params st.x st.y
    (s, ⟨e.1, e.2, st.mx, st.my⟩)
  else if s.cmd = 'a' then
    let ps := s.params.take (s.params.length - 2) ++
      addPairXY st.x st.y (s.params.drop (s.params.length - 2))
    let e := lastPoint ps st.x st.y
    (⟨'A', ps⟩, ⟨e.1, e.2, st.mx, st.my⟩)
  else if s.cmd = 'Z' ∨ s.cmd = 'z' then
    (⟨'Z', s.params⟩, ⟨st.mx, st.my, st.mx, st.my⟩)
  else (s, st)

/-- The absolute-form converter threaded over a segment list. -/
def toAbsoluteLoop (st : AbsState) : List Seg → List Seg
  | [] => []
  | s :: rest =>
    let r := toAbsoluteSegment st s
    r.1 :: toAbsoluteLoop r.2 rest

/-- Modelled from the spec: `pathToAbsolute` (section 4.2); the running point
and subpath start begin at the origin. -/
def pathToAbsolute (p : Path) : Path :=
  toAbsoluteLoop ⟨0, 0, 0, 0⟩ p

/-- Running state of the normalizer: current point, subpath start, the
previous cubic's second control point, the previous quadratic's control
point, and the previous command letter. -/
structure NormState where
  x : ℚ
  y : ℚ
  mx : ℚ
  my : ℚ
  cx : ℚ
  cy : ℚ
  qx : ℚ
  qy : ℚ
  prevCmd : Char
deriving DecidableEq, Repr

/-- Modelled from the spec: shorthand/axis expansion of one absolute segment
(`src/process/normalizeSegment` is declared but not under `src/`). Section
4.2: "a shorthand cubic's implied control point is the reflection of the
previous cubic's second control point through the current point (or the
current point itself if the previous command was not a cubic); shorthand
quadratic reflects analogously; H/V expand to full two-coordinate lines". -/
def normalizeSegment (st : NormState) (s : Seg) : Seg :=
  if s.cmd = 'H' then ⟨'L', [s.params.getD 0 st.x, st.y]⟩
  else if s.cmd = 'V' then ⟨'L', [st.x, s.params.getD 0 st.y]⟩
  else if s.cmd = 'S' then
    let c := if st.prevCmd = 'C' ∨ st.prevCmd = 'S'
      then (2 * st.x - st.cx, 2 * st.y - st.cy) else (st.x, st.y)
    ⟨'C', c.1 :: c.2 :: s.params⟩
  else if s.cmd = 'T' then
    let c := if st.prevCmd = 'Q' ∨ st.prevCmd = 'T'
      then (2 * st.x - st.qx, 2 * st.y - st.qy) else (st.x, st.y)
    ⟨'Q', c.1 :: c.2 :: s.params⟩
  else s

/-- State update of the normalizer, driven by the expanded segment `o` and
the original command letter of the input segment. -/
def normStateUpdate (st : NormState) (inCmd : Char) (o : Seg) : NormState :=
  let e := if o.cmd = 'Z' then (st.mx, st.my) else lastPoint o.params st.x st.y
  { x := e.1
    y := e.2
    mx := if o.cmd = 'M' then e.1 else st.mx
    my := if o.cmd = 'M' then e.2 else st.my
    cx := if o.cmd = 'C' then o.params.getD 2 0 else st.cx
    cy := if o.cmd = 'C' then o.params.getD 3 0 else st.cy
    qx := if o.cmd = 'Q' then o.params.getD 0 0 else st.qx
    qy := if o.cmd = 'Q' then o.params.getD 1 0 else st.qy
    prevCmd := inCmd }

/-- The normalizer threaded over an absolute segment list. -/
def normalizeLoop (st : NormState) : List Seg → List Seg
  | [] => []
  | s :: rest =>
    let o := normalizeSegment st s
    o :: normalizeLoop (normStateUpdate st s.cmd o) rest

/-- Modelled from the spec: `normalizePath` (section 4.2) composes
`ToAbsolute` with shorthand expansion; output uses only {M, L, C, Q, A, Z}.
(`src/process/normalizePath` is declared but not under `src/`.) -/
def normalizePath (p : Path) : Path :=
  normalizeLoop ⟨0, 0, 0, 0, 0, 0, 0, 0, 'M'⟩ (pathToAbsolute p)

/-- Modelled from the spec: the external matrix-algebra collaborator
(`@thednp/dommatrix` is not part of this repository). A 4x4 homogeneous
matrix, fields named as in DOMMatrix. -/
structure CSSMatrix where
  m11 : ℚ
  m12 : ℚ
  m13 : ℚ
  m14 : ℚ
  m21 : ℚ
  m22 : ℚ
  m23 : ℚ
  m24 : ℚ
  m31 : ℚ
  m32 : ℚ
  m33 : ℚ
  m34 : ℚ
  m41 : ℚ
  m42 : ℚ
  m43 : ℚ
  m44 : ℚ
deriving DecidableEq, Repr

/-- The identity matrix, the value of the default `new CSSMatrix()`. -/
def CSSMatrix.identityM : CSSMatrix :=
  ⟨1, 0, 0, 0, 0, 1, 0, 0, 0, 0, 1, 0, 0, 0, 0, 1⟩

/-- `matrix.isIdentity` of the collaborator: every component matches the
identity matrix. -/
def CSSMatrix.isIdentity (m : CSSMatrix) : Prop := m = CSSMatrix.identityM

instance (m : CSSMatrix) : Decidable m.isIdentity := by
  unfold CSSMatrix.isIdentity; infer_instance

/-- `matrix.transformPoint` on a homogeneous point (column-vector
convention of DOMMatrix). -/
def CSSMatrix.transformPoint (m : CSSMatrix) (x y z w : ℚ) : ℚ × ℚ × ℚ × ℚ :=
  (m.m11 * x + m.m21 * y + m.m31 * z + m.m41 * w,
   m.m12 * x + m.m22 * y + m.m32 * z + m.m42 * w,
   m.m13 * x + m.m23 * y + m.m33 * z + m.m43 * w,
   m.m14 * x + m.m24 * y + m.m34 * z + m.m44 * w)

/-- Modelled from the spec: `projection2d`
(`src/process/projection2d` is declared but not under `src/`). Section 4.6:
"project every coordinate pair through the matrix using homogeneous
perspective division anchored at the origin (translate to origin, apply
matrix, divide by resulting w, translate back)". Division by a zero `w`
follows the rational convention `q / 0 = 0`. -/
def projection2d (m : CSSMatrix) (pt : ℚ × ℚ) (origin : ℚ × ℚ × ℚ) : ℚ × ℚ :=
  let ox := origin.1
  let oy := origin.2.1
  let oz := origin.2.2
  let r := m.transformPoint (pt.1 - ox) (pt.2 - oy) (0 - oz) 1
  (r.1 / r.2.2.2 + ox, r.2.1 / r.2.2.2 + oy)

/-- A transform descriptor (`TransformObject` of the interface): each field
optional; fields default to the identity transformation. -/
structure TransformObject where
  translate : Option (ℚ × ℚ × ℚ) := none
  rotate : Option (ℚ × ℚ × ℚ) := none
  scale : Option (ℚ × ℚ × ℚ) := none
  skew : Option (ℚ × ℚ) := none
  matrix : Option CSSMatrix := none
  origin : Option (ℚ × ℚ × ℚ) := none
deriving DecidableEq, Repr

/-- `Object.keys(transform).length === 0`: no field of the descriptor is
present. -/
def descKeysEmpty (d : TransformObject) : Prop :=
  d.translate = none ∧ d.rotate = none ∧ d.scale = none ∧ d.skew = none ∧
    d.matrix = none ∧ d.origin = none

instance (d : TransformObject) : Decidable (descKeysEmpty d) := by
  unfold descKeysEmpty; infer_instance

/-- Modelled from the spec: `defaultOptions.origin`
(`src/options/options` is declared but not under `src/`); section 6 gives
"`origin:[x,y,z]` default [0,0,0]". -/
def defaultOptionsOrigin : ℚ × ℚ × ℚ := (0, 0, 0)

/-- The `transform` argument of `transformPath`: absent, a CSS transform
string, a `CSSMatrix` instance, or a descriptor object. -/
inductive TransformArg where
  | absent : TransformArg
  | str : String → TransformArg
  | matrix : CSSMatrix → TransformArg
  | descriptor : TransformObject → TransformArg

/-- The collaborators `transformPath` calls whose implementations are not
under `src/`: `getSVGMatrix` (descriptor composition), the `CSSMatrix`
string constructor, and `arcToCubic` (arc flattening; argument order
x1 y1 rx ry angle large-arc-flag sweep-flag x2 y2, returning the flattened
parameter list of the produced cubic segments). -/
structure Collab where
  getSVGMatrix : TransformObject → CSSMatrix
  parseMatrixString : String → CSSMatrix
  arcToCubic : ℚ → ℚ → ℚ → ℚ → ℚ → ℚ → ℚ → ℚ → ℚ → List ℚ

/-- The subset of the mutable `paramsParser` record that `transformPath`
uses: previous endpoint `(x1, y1)` and previous second control `(x2, y2)`. -/
structure PathParams where
  x1 : ℚ
  y1 : ℚ
  x2 : ℚ
  y2 : ℚ
deriving DecidableEq, Repr

/-- Lines 97-103 of transformPath.ts: after selecting the (normalized)
segment, `params.x1/y1` become its last coordinate pair and `params.x2/y2`
its fourth/third-from-last value, falling back to `x1/y1` when that value is
absent or zero (the JS `|| params.x1` treats 0 as absent). Indices past the
front of the segment read as 0 here; in JS they produce NaN, which is dead
for normalized segments. -/
def updateParams (n : Seg) : PathParams :=
  let k := n.params.length
  let nx1 := if 2 ≤ k then n.params.getD (k - 2) 0 else 0
  let ny1 := if 2 ≤ k then n.params.getD (k - 1) 0 else 0
  let vx2 := if 4 ≤ k then n.params.getD (k - 4) 0 else 0
  let vy2 := if 4 ≤ k then n.params.getD (k - 3) 0 else 0
  ⟨nx1, ny1, if vx2 = 0 then nx1 else vx2, if vy2 = 0 then ny1 else vy2⟩

/-- One record of the intermediate `transformedPath` array: the (possibly
arc-replaced) absolute segment, its command letter, and the endpoint taken
from the parallel normalized segment. -/
structure TRes where
  s : Seg
  c : Char
  x : ℚ
  y : ℚ
deriving DecidableEq, Repr

/-- Modelled from the spec: `segmentToCubic`
(`src/process/segmentToCubic` is declared but not under `src/`).
`transformPath` invokes it only when the command check has already
established an `A` segment; the arc case delegates to `arcToCubic` with the
running point from `params`, producing one (possibly extended) `C` segment.
Other commands are returned unchanged here. -/
def segmentToCubic (a2c : ℚ → ℚ → ℚ → ℚ → ℚ → ℚ → ℚ → ℚ → ℚ → List ℚ)
    (n : Seg) (pp : PathParams) : Seg :=
  if n.cmd = 'A' then
    let rx := n.params.getD 0 0
    let ry := n.params.getD 1 0
    let rot := n.params.getD 2 0
    let laf := n.params.getD 3 0
    let sf := n.params.getD 4 0
    let ex := n.params.getD 5 0
    let ey := n.params.getD 6 0
    ⟨'C', a2c pp.x1 pp.y1 rx ry rot laf sf ex ey⟩
  else n

/-- Split a value list into runs of at most six (the `segment.splice(0, 6)`
loop of `fixArc`). -/
def chunk6 : List ℚ → List (List ℚ)
  | [] => []
  | a :: rest => (a :: rest).take 6 :: chunk6 ((a :: rest).drop 6)
termination_by l => l.length
decreasing_by
  simp only [List.length_drop, List.length_cons]
  omega

/-- Modelled from the spec: `fixArc`
(`src/process/fixArc` is declared but not under `src/`): an extended
cubic segment (more than one run of six values, i.e. raw length above 7)
is split into separate `C` segments of six values each; a plain segment is
left alone. -/
def fixArcSplit (s : Seg) : List Seg :=
  if 6 < s.params.length then (chunk6 s.params).map (fun c => ⟨'C', c⟩) else [s]

/-- Number of arc segments on the absolute side of the worklist; termination
measure for the first transformPath loop. -/
def countArc (l : List (Seg × Seg)) : Nat :=
  l.countP (fun ab => ab.1.cmd = 'A')

/-- The records contributed by the cubic pieces an arc replacement spliced
into both lists (the loop revisits them at successive indices `i`; each
piece is a `C` segment, so it takes the non-arc branch), together with the
final `params` state. -/
def tpPieces : List Seg → PathParams → List TRes × PathParams
  | [], pp => ([], pp)
  | p :: ps, _ =>
    let pp1 := updateParams p
    let r := tpPieces ps pp1
    (⟨p, p.cmd, pp1.x1, pp1.y1⟩ :: r.1, r.2)

/-- Lines 72-113 of transformPath.ts: the first loop over the parallel
absolute/normalized segment lists. An `A` segment is converted to cubic
form (both lists receive the same converted value) and split; every
processed segment contributes a `TRes` record carrying the absolute segment
and the endpoint from the updated `params`. -/
def tpLoop (a2c : ℚ → ℚ → ℚ → ℚ → ℚ → ℚ → ℚ → ℚ → ℚ → List ℚ) :
    List (Seg × Seg) → PathParams → List TRes
  | [], _ => []
  | (a, n) :: rest, pp =>
    if a.cmd = 'A' then
      let po := tpPieces (fixArcSplit (segmentToCubic a2c n pp)) pp
      po.1 ++ tpLoop a2c rest po.2
    else
      let pp1 := updateParams n
      ⟨a, a.cmd, pp1.x1, pp1.y1⟩ :: tpLoop a2c rest pp1

/-- Project the even-indexed coordinate pairs of a parameter list through
`projection2d` (the `for (j = 1 ...; j += 2)` loop, lines 136-140),
returning the rewritten list and the final running point. A trailing odd
value is left unchanged (for normalized segments the parameter run is
even). -/
def projPairs (m : CSSMatrix) (origin : ℚ × ℚ × ℚ) :
    List ℚ → ℚ → ℚ → List ℚ × ℚ × ℚ
  | a :: b :: rest, _, _ =>
    let n := projection2d m (a, b) origin
    let r := projPairs m origin rest n.1 n.2
    (n.1 :: n.2 :: r.1, r.2)
  | l, x, y => (l, x, y)

/-- Lines 118-134 of transformPath.ts: classification of a projected
line-family segment against the running point `(x, y)`: a general line when
both coordinates moved, `H` when the projected y equals the running y, `V`
when the projected x equals the running x; the final (unreachable) branch
keeps the stored segment. -/
def lhvSegment (x y lx ly : ℚ) (fallback : Seg) : Seg :=
  if x ≠ lx ∧ y ≠ ly then ⟨'L', [lx, ly]⟩
  else if y = ly then ⟨'H', [lx]⟩
  else if x = lx then ⟨'V', [ly]⟩
  else fallback

/-- Lines 115-144 of transformPath.ts: the mapping pass over
`transformedPath`, threading the running projected point `(x, y)` (initially
0, 0). -/
def projLoop (m : CSSMatrix) (origin : ℚ × ℚ × ℚ) :
    ℚ → ℚ → List TRes → List Seg
  | _, _, [] => []
  | x, y, r :: rest =>
    if r.c = 'L' ∨ r.c = 'H' ∨ r.c = 'V' then
      let n := projection2d m (r.x, r.y) origin
      lhvSegment x y n.1 n.2 r.s :: projLoop m origin n.1 n.2 rest
    else
      let pr := projPairs m origin r.s.params x y
      ⟨r.s.cmd, pr.1⟩ :: projLoop m origin pr.2.1 pr.2.2 rest

/-- `transform.origin` defaulting, lines 52-56: an absent origin is filled
in from `defaultOptions`. -/
def withDefaultOrigin (d : TransformObject) : TransformObject :=
  if d.origin = none then { d with origin := some defaultOptionsOrigin } else d

/-- Lines 61-146 of transformPath.ts: the invalid-matrix guard, the identity
short-circuit, and the two transformation passes. `mi` models the JS
`matrixInstance` variable, `none` standing for a falsy value. -/
def transformCore (co : Collab) (mi : Option CSSMatrix) (origin : ℚ × ℚ × ℚ)
    (absolutePath normalizedPath : Path) : Except String Path :=
  match mi with
  | none => .error "invalid matrix instance"
  | some m =>
    if m.isIdentity then .ok absolutePath
    else .ok (projLoop m origin 0 0
      (tpLoop co.arcToCubic (absolutePath.zip normalizedPath) ⟨0, 0, 0, 0⟩))

/-- The embedding of `transformPath` (src/process/transformPath.ts): convert
the input to absolute and normalized form, resolve the transform argument to
a matrix and an origin with the early returns of lines 42-59, then run
`transformCore`. -/
def transformPath (co : Collab) (p : Path) (t : TransformArg) :
    Except String Path :=
  let absolutePath := pathToAbsolute p
  let normalizedPath := normalizePath absolutePath
  match t with
  | .absent => .ok absolutePath
  | .str s =>
    transformCore co (some (co.parseMatrixString s)) (0, 0, 0)
      absolutePath normalizedPath
  | .matrix m =>
    transformCore co (some m) (0, 0, 0) absolutePath normalizedPath
  | .descriptor d =>
    if descKeysEmpty d then .ok absolutePath
    else
      let d1 := withDefaultOrigin d
      transformCore co (some (co.getSVGMatrix d1))
        (d1.origin.getD (0, 0, 0)) absolutePath normalizedPath

/-- The transform arguments that denote the identity per claim C1: an
absent transform, an empty descriptor object, a matrix argument equal to
the identity, or a descriptor whose composed matrix (after origin
defaulting, as in lines 52-57) is the identity. -/
def identityArg (gm : TransformObject → CSSMatrix) : TransformArg → Prop
  | .absent => True
  | .str _ => False
  | .matrix m => m.isIdentity
  | .descriptor d => descKeysEmpty d ∨ (gm (withDefaultOrigin d)).isIdentity

/-! ### Grammar scanner (spec-modelled, section 4.1) -/

/-- Separator characters: whitespace and commas are optional, skippable
separators. -/
def isSep (ch : Char) : Bool :=
  ch == ' ' || ch == '\t' || ch == '\n' || ch == '\r' || ch == ','

/-- Characters that can start a numeric literal. -/
def isDigitStartCh (ch : Char) : Bool :=
  ch.isDigit || ch == '-' || ch == '+' || ch == '.'

/-- Value of a digit run. -/
def digitsToNat (ds : List Char) : Nat :=
  ds.foldl (fun n c => 10 * n + (c.toNat - 48)) 0

/-- Ten to a signed power, as a rational. -/
def qpow10 (e : ℤ) : ℚ :=
  if 0 ≤ e then (10 : ℚ) ^ e.toNat else 1 / (10 : ℚ) ^ (-e).toNat

/-- Optional exponent suffix of a numeric literal. -/
def scanExpOpt (v : ℚ) (cs : List Char) : Option (ℚ × List Char) :=
  match cs with
  | 'e' :: r | 'E' :: r =>
    let sr : ℤ × List Char :=
      match r with
      | '-' :: rr => (-1, rr)
      | '+' :: rr => (1, rr)
      | _ => (1, r)
    let eds := sr.2.takeWhile Char.isDigit
    if eds.isEmpty then none
    else some (v * qpow10 (sr.1 * digitsToNat eds), sr.2.dropWhile Char.isDigit)
  | _ => some (v, cs)

/-- Modelled from the spec: one numeric literal (`src/parser/scanParam` is
declared but not under `src/`). Section 4.1: "Numeric literals support sign,
integer/fractional parts, and exponents". -/
def scanNumber (cs : List Char) : Option (ℚ × List Char) :=
  let sc : ℚ × List Char :=
    match cs with
    | '-' :: r => (-1, r)
    | '+' :: r => (1, r)
    | _ => (1, cs)
  let ids := sc.2.takeWhile Char.isDigit
  let cs2 := sc.2.dropWhile Char.isDigit
  match cs2 with
  | '.' :: r =>
    let fds := r.takeWhile Char.isDigit
    if ids.isEmpty ∧ fds.isEmpty then none
    else
      scanExpOpt
        (sc.1 * ((digitsToNat ids : ℚ) +
          (digitsToNat fds : ℚ) / (10 : ℚ) ^ fds.length))
        (r.dropWhile Char.isDigit)
  | _ =>
    if ids.isEmpty then none
    else scanExpOpt (sc.1 * (digitsToNat ids : ℚ)) cs2

/-- Modelled from the spec: an arc flag (`src/parser/scanFlag` is declared
but not under `src/`): a single digit in {0, 1}, possibly adjacent to the
following value. -/
def scanFlagV (cs : List Char) : Option (ℚ × List Char) :=
  match cs with
  | '0' :: r => some (0, r)
  | '1' :: r => some (1, r)
  | _ => none

/-- Scan `n` parameter values for a segment; for an arc command, positions
3 and 4 (0-based) are flags. Separators before each value are skipped. -/
def scanNParams (isArc : Bool) : Nat → Nat → List Char → Option (List ℚ × List Char)
  | 0, _, cs => some ([], cs)
  | n + 1, idx, cs =>
    let cs1 := cs.dropWhile isSep
    let r? := if isArc ∧ (idx = 3 ∨ idx = 4) then scanFlagV cs1 else scanNumber cs1
    match r? with
    | none => none
    | some (v, cs2) =>
      match scanNParams isArc n (idx + 1) cs2 with
      | none => none
      | some (vs, cs3) => some (v :: vs, cs3)

/-- The command an implicit repetition scans under: M repeats as L (same
case), any other command repeats as itself. -/
def repeatCmd (pc : Char) : Char :=
  if pc = 'M' then 'L' else if pc = 'm' then 'l' else pc

/-- Modelled from the spec: one dispatch of the scanner's main loop
(`src/parser/scanSegment` is declared but not under `src/`). Section 4.1:
command letters start segments; a bare numeric value after a completed
segment implicitly repeats the previous command (M repeating as L); the
first command must be a moveto; a grammar violation yields a failure
(`none`). The continuation `next` scans the remaining text. -/
def scanStep (next : Option Char → List Char → Option (List Seg))
    (prev : Option Char) (cs : List Char) : Option (List Seg) :=
  match cs.dropWhile isSep with
  | [] => some []
  | ch :: rest =>
    if validCmd ch then
      if prev = none ∧ ch ≠ 'M' ∧ ch ≠ 'm' then none
      else
        match scanNParams (ch.toLower = 'a') (paramsCount ch.toLower) 0 rest with
        | none => none
        | some (ps, cs2) =>
          match next (some ch) cs2 with
          | none => none
          | some segs => some (⟨ch, ps⟩ :: segs)
    else if isDigitStartCh ch then
      match prev with
      | none => none
      | some pc =>
        if pc = 'Z' ∨ pc = 'z' then none
        else
          match scanNParams ((repeatCmd pc).toLower = 'a')
              (paramsCount (repeatCmd pc).toLower) 0 (ch :: rest) with
          | none => none
          | some (ps, cs2) =>
            match next (some (repeatCmd pc)) cs2 with
            | none => none
            | some segs => some (⟨repeatCmd pc, ps⟩ :: segs)
    else none

/-- The scanner's loop, bounded by a fuel argument; the entry point
supplies more fuel than the input length. -/
def scanSegs : Nat → Option Char → List Char → Option (List Seg)
  | 0, _, _ => none
  | fuel + 1, prev, cs => scanStep (scanSegs fuel) prev cs

/-- Modelled from the spec: `parsePathString`
(`src/parser/parsePathString` is declared but not under `src/`): text to a
segment list, or `none` on a grammar violation. -/
def parsePathString (s : String) : Option Path :=
  scanSegs (s.length + 1) none s.toList

/-! ### Curve converter (spec-modelled, sections 4.3-4.4) -/

/-- Running state of the curve converter: current point and subpath start. -/
structure CurveState where
  x : ℚ
  y : ℚ
  mx : ℚ
  my : ℚ
deriving DecidableEq, Repr

/-- Modelled from the spec: conversion of one normalized segment to curve
form (`src/process/segmentToCubic` / `src/convert/pathToCurve` are declared
but not under `src/`). Section 4.3: lines become degenerate cubics with
control points at the exact 1/3 and 2/3 points (preserving linear
parameterization); quadratics are degree-raised with control points
`start + 2/3 (ctrl - start)` and `end + 2/3 (ctrl - end)`; arcs are
flattened by the arc-to-cubic collaborator into runs of six values, one `C`
segment per run. -/
def segmentToCurve (a2c : ℚ → ℚ → ℚ → ℚ → ℚ → ℚ → ℚ → ℚ → ℚ → List ℚ)
    (st : CurveState) (s : Seg) : List Seg × CurveState :=
  if s.cmd = 'M' then
    let e := lastPoint s.params st.x st.y
    ([s], ⟨e.1, e.2, e.1, e.2⟩)
  else if s.cmd = 'L' then
    let ex := s.params.getD 0 st.x
    let ey := s.params.getD 1 st.y
    ([⟨'C', [(2 * st.x + ex) / 3, (2 * st.y + ey) / 3,
             (st.x + 2 * ex) / 3, (st.y + 2 * ey) / 3, ex, ey]⟩],
     ⟨ex, ey, st.mx, st.my⟩)
  else if s.cmd = 'Q' then
    let qx := s.params.getD 0 0
    let qy := s.params.getD 1 0
    let ex := s.params.getD 2 st.x
    let ey := s.params.getD 3 st.y
    ([⟨'C', [st.x + 2 / 3 * (qx - st.x), st.y + 2 / 3 * (qy - st.y),
             ex + 2 / 3 * (qx - ex), ey + 2 / 3 * (qy - ey), ex, ey]⟩],
     ⟨ex, ey, st.mx, st.my⟩)
  else if s.cmd = 'C' then
    let e := lastPoint s.params st.x st.y
    ([s], ⟨e.1, e.2, st.mx, st.my⟩)
  else if s.cmd = 'A' then
    let rx := s.params.getD 0 0
    let ry := s.params.getD 1 0
    let rot := s.params.getD 2 0
    let laf := s.params.getD 3 0
    let sf := s.params.getD 4 0
    let ex := s.params.getD 5 st.x
    let ey := s.params.getD 6 st.y
    ((chunk6 (a2c st.x st.y rx ry rot laf sf ex ey)).map (fun c => ⟨'C', c⟩),
     ⟨ex, ey, st.mx, st.my⟩)
  else if s.cmd = 'Z' then
    ([s], ⟨st.mx, st.my, st.mx, st.my⟩)
  else ([s], st)

/-- The curve converter threaded over a normalized segment list. -/
def curveLoop (a2c : ℚ → ℚ → ℚ → ℚ → ℚ → ℚ → ℚ → ℚ → ℚ → List ℚ)
    (st : CurveState) : List Seg → List Seg
  | [] => []
  | s :: rest =>
    let r := segmentToCurve a2c st s
    r.1 ++ curveLoop a2c r.2 rest

/-- State of the redundant-close scan: current point, subpath start, and
whether the subpath contains segments besides its moveto. -/
structure CloseState where
  cx : ℚ
  cy : ℚ
  sx : ℚ
  sy : ℚ
  has : Bool
deriving DecidableEq, Repr

/-- Modelled from the spec, section 4.3: "A trailing close segment is
dropped when redundant - i.e., when the preceding segment's own endpoint
already coincides with the subpath start and the subpath contains other
segments." A close (kept or dropped) resets the current point to the
subpath start. -/
def dropZLoop (st : CloseState) : List Seg → List Seg
  | [] => []
  | s :: rest =>
    if s.cmd = 'Z' then
      if st.cx = st.sx ∧ st.cy = st.sy ∧ st.has then
        dropZLoop ⟨st.sx, st.sy, st.sx, st.sy, st.has⟩ rest
      else
        s :: dropZLoop ⟨st.sx, st.sy, st.sx, st.sy, st.has⟩ rest
    else if s.cmd = 'M' then
      let e := lastPoint s.params st.cx st.cy
      s :: dropZLoop ⟨e.1, e.2, e.1, e.2, false⟩ rest
    else
      let e := lastPoint s.params st.cx st.cy
      s :: dropZLoop ⟨e.1, e.2, st.sx, st.sy, true⟩ rest

/-- Modelled from the spec: `pathToCurve` (section 4.3) reduces a normalized
sequence to {M, C, Z} and drops a redundant close
(`src/convert/pathToCurve` is declared but not under `src/`). The
arc-to-cubic collaborator is a parameter, as its trigonometric core lives
outside `src/`. -/
def pathToCurve (a2c : ℚ → ℚ → ℚ → ℚ → ℚ → ℚ → ℚ → ℚ → ℚ → List ℚ)
    (p : Path) : Path :=
  dropZLoop ⟨0, 0, 0, 0, false⟩ (curveLoop a2c ⟨0, 0, 0, 0⟩ (normalizePath p))

/-! ### Serializer and optimizer (spec-modelled, section 4.7) -/

/-- Drop trailing zero characters (of a fractional digit run). -/
def stripTrailingZeros (s : String) : String :=
  String.mk ((s.toList.reverse.dropWhile (· == '0')).reverse)

/-- Modelled from the spec: decimal rendering of one value at the default
precision of four decimals (`src/process/roundPath` and the number rendering
of `src/convert/pathToString` are declared but not under `src/`). Rounding
is `Math.round(v * 10^4) / 10^4`; a redundant leading zero before the
decimal point is stripped (section 4.7). -/
def numStr4 (q : ℚ) : String :=
  let m : ℤ := ⌊q * 10000 + 1 / 2⌋
  let a : ℕ := m.natAbs
  let ip : ℕ := a / 10000
  let fp : ℕ := a % 10000
  let sign := if m < 0 then "-" else ""
  if fp = 0 then sign ++ toString ip
  else
    let fs := stripTrailingZeros
      (String.mk (List.replicate (4 - (toString fp).length) '0') ++ toString fp)
    if ip = 0 then sign ++ "." ++ fs
    else sign ++ toString ip ++ "." ++ fs

/-- Join rendered values, omitting the separator only where the following
value cannot be misread as a continuation of the previous numeral (here:
before a sign). Section 4.7. -/
def joinNums : List String → String
  | [] => ""
  | [a] => a
  | a :: b :: rest =>
    a ++ (if b.startsWith "-" then "" else " ") ++ joinNums (b :: rest)

/-- One segment's rendering: the command letter directly followed by its
joined values. -/
def segStr (s : Seg) : String :=
  String.singleton s.cmd ++ joinNums (s.params.map numStr4)

/-- Modelled from the spec: `pathToString` under the default rounding
(`src/convert/pathToString` is declared but not under `src/`): the
concatenation of the segment renderings (command letters separate
segments). -/
def pathToString : Path → String
  | [] => ""
  | s :: rest => segStr s ++ pathToString rest

/-- Subtract the running point from an even run of coordinate values. -/
def subPairXY (x y : ℚ) : List ℚ → List ℚ
  | a :: b :: rest => (a - x) :: (b - y) :: subPairXY x y rest
  | l => l

/-- The relative encoding of an absolute segment against the running point
`(x, y)`: the inverse rewriting of `ToAbsolute` (section 4.2). -/
def relSegment (x y : ℚ) (a : Seg) : Seg :=
  if a.cmd = 'M' then ⟨'m', subPairXY x y a.params⟩
  else if a.cmd = 'L' ∨ a.cmd = 'C' ∨ a.cmd = 'S' ∨ a.cmd = 'Q' ∨ a.cmd = 'T' then
    ⟨a.cmd.toLower, subPairXY x y a.params⟩
  else if a.cmd = 'H' then ⟨'h', a.params.map (· - x)⟩
  else if a.cmd = 'V' then ⟨'v', a.params.map (· - y)⟩
  else if a.cmd = 'A' then
    ⟨'a', a.params.take (a.params.length - 2) ++
      subPairXY x y (a.params.drop (a.params.length - 2))⟩
  else if a.cmd = 'Z' then ⟨'z', a.params⟩
  else a

/-- Running state of the optimizer: geometry state plus the bookkeeping
needed for shorthand eligibility (previous second cubic control, previous
quadratic control, previous command). -/
structure OptState where
  x : ℚ
  y : ℚ
  mx : ℚ
  my : ℚ
  cx : ℚ
  cy : ℚ
  qx : ℚ
  qy : ℚ
  prevCmd : Char
deriving DecidableEq, Repr

/-- Modelled from the spec: the shorthand encodings of an absolute segment,
"when eligible" (section 4.7): an axis-aligned line may become H/V (absolute
or relative); a cubic whose first control point is the implied reflection
may become S; a quadratic whose control point is the implied reflection may
become T. -/
def shorthandCands (st : OptState) (a : Seg) : List Seg :=
  if a.cmd = 'L' then
    let ex := a.params.getD 0 0
    let ey := a.params.getD 1 0
    (if ey = st.y then [⟨'H', [ex]⟩, ⟨'h', [ex - st.x]⟩] else []) ++
      (if ex = st.x then [⟨'V', [ey]⟩, ⟨'v', [ey - st.y]⟩] else [])
  else if a.cmd = 'C' then
    let impl := if st.prevCmd = 'C' ∨ st.prevCmd = 'S'
      then (2 * st.x - st.cx, 2 * st.y - st.cy) else (st.x, st.y)
    if a.params.getD 0 0 = impl.1 ∧ a.params.getD 1 0 = impl.2 then
      [⟨'S', a.params.drop 2⟩, ⟨'s', subPairXY st.x st.y (a.params.drop 2)⟩]
    else []
  else if a.cmd = 'Q' then
    let impl := if st.prevCmd = 'Q' ∨ st.prevCmd = 'T'
      then (2 * st.x - st.qx, 2 * st.y - st.qy) else (st.x, st.y)
    if a.params.getD 0 0 = impl.1 ∧ a.params.getD 1 0 = impl.2 then
      [⟨'T', a.params.drop 2⟩, ⟨'t', subPairXY st.x st.y (a.params.drop 2)⟩]
    else []
  else []

/-- Keep the candidate whose rendering is strictly shorter (ties keep the
earlier candidate). -/
def shorterSeg (b c : Seg) : Seg :=
  if (segStr c).length < (segStr b).length then c else b

/-- Fold `shorterSeg` over a candidate list. -/
def chooseSeg (b : Seg) : List Seg → Seg
  | [] => b
  | c :: cs => chooseSeg (shorterSeg b c) cs

/-- Modelled from the spec: the per-segment optimization step (section 4.7):
"For each segment, compute its absolute encoding, relative encoding, and
(when eligible) shorthand encoding; select whichever serializes shortest
after rounding; ties resolve to one fixed deterministic choice (relative
preferred)." The geometry/bookkeeping state advances from the absolute
encoding, independently of the choice. -/
def optStep (st : OptState) (s : Seg) : Seg × OptState :=
  let ar := toAbsoluteSegment ⟨st.x, st.y, st.mx, st.my⟩ s
  let a := ar.1
  let r := relSegment st.x st.y a
  let chosen := chooseSeg r (a :: shorthandCands st a)
  let newC :=
    if a.cmd = 'C' then (a.params.getD 2 0, a.params.getD 3 0)
    else if a.cmd = 'S' then (a.params.getD 0 0, a.params.getD 1 0)
    else (st.cx, st.cy)
  let newQ :=
    if a.cmd = 'Q' then (a.params.getD 0 0, a.params.getD 1 0)
    else if a.cmd = 'T' then
      (if st.prevCmd = 'Q' ∨ st.prevCmd = 'T'
        then (2 * st.x - st.qx, 2 * st.y - st.qy) else (st.x, st.y))
    else (st.qx, st.qy)
  (chosen,
   ⟨ar.2.x, ar.2.y, ar.2.mx, ar.2.my, newC.1, newC.2, newQ.1, newQ.2, a.cmd⟩)

/-- The optimizer threaded over the input segments. -/
def optimizeLoop (st : OptState) : List Seg → List Seg
  | [] => []
  | s :: rest =>
    let r := optStep st s
    r.1 :: optimizeLoop r.2 rest

/-- Modelled from the spec: `optimizePath` under the default rounding
(`src/process/optimizePath` is declared but not under `src/`). -/
def optimizePath (p : Path) : Path :=
  optimizeLoop ⟨0, 0, 0, 0, 0, 0, 0, 0, 'M'⟩ p

/-! ### Store model of transformPath for the frame property

JS segments are heap objects; `transformPath` mutates some of them in place
(the arc replacement of lines 85-94 and the coordinate writes of lines
135-143). To state that the caller's array is not mutated, segments live in
a store of cells and a path value held by a caller is a list of cell
references. Per section 5, `pathToAbsolute` yields a fresh path (a clone
when the input is already absolute), modelled as allocation of fresh cells;
all subsequent writes hit cells allocated during the call. -/

/-- A store of segment cells. -/
abbrev SegStore := List Seg

/-- Read a cell (out-of-range references read a dummy segment). -/
def storeGet (st : SegStore) (i : Nat) : Seg :=
  st.getD i ⟨'M', []⟩

/-- Allocate fresh cells holding the given segments, returning the new
store and the references. -/
def allocSegs (st : SegStore) (ss : List Seg) : SegStore × List Nat :=
  (st ++ ss, List.range' st.length ss.length)

/-- A `transformedPath` record in the store model: a reference to the stored
absolute segment instead of the segment itself. -/
structure TResRef where
  ref : Nat
  c : Char
  x : ℚ
  y : ℚ
deriving DecidableEq, Repr

/-- Records and final `params` state for freshly allocated arc pieces. -/
def tpPiecesStore : List (Nat × Seg) → PathParams → List TResRef × PathParams
  | [], pp => ([], pp)
  | (ir, p) :: ps, _ =>
    let pp1 := updateParams p
    let r := tpPiecesStore ps pp1
    (⟨ir, p.cmd, pp1.x1, pp1.y1⟩ :: r.1, r.2)

/-- Store version of `tpLoop`: the worklist pairs a reference to the
absolute segment's cell with the normalized segment's value (the normalized
list is only read at segment granularity). Replacing an arc rebinds the
local array slots to freshly allocated cubic cells; no existing cell is
written in this pass. -/
def tpLoopStore (a2c : ℚ → ℚ → ℚ → ℚ → ℚ → ℚ → ℚ → ℚ → ℚ → List ℚ) :
    SegStore → List (Nat × Seg) → PathParams → SegStore × List TResRef
  | st, [], _ => (st, [])
  | st, (ia, n) :: rest, pp =>
    if (storeGet st ia).cmd = 'A' then
      let pieces := fixArcSplit (segmentToCubic a2c n pp)
      let al := allocSegs st pieces
      let po := tpPiecesStore (al.2.zip pieces) pp
      let r := tpLoopStore a2c al.1 rest po.2
      (r.1, po.1 ++ r.2)
    else
      let pp1 := updateParams n
      let r := tpLoopStore a2c st rest pp1
      (r.1, ⟨ia, (storeGet st ia).cmd, pp1.x1, pp1.y1⟩ :: r.2)

/-- Store version of `projLoop`: an L/H/V record yields a freshly allocated
segment (the literal arrays of lines 123-127); any other record's cell is
updated in place with the projected coordinates (lines 136-140). Returns
the final store and the references making up the returned path. -/
def projLoopStore (m : CSSMatrix) (origin : ℚ × ℚ × ℚ) :
    SegStore → ℚ → ℚ → List TResRef → SegStore × List Nat
  | st, _, _, [] => (st, [])
  | st, x, y, r :: rest =>
    if r.c = 'L' ∨ r.c = 'H' ∨ r.c = 'V' then
      let n := projection2d m (r.x, r.y) origin
      let al := allocSegs st [lhvSegment x y n.1 n.2 (storeGet st r.ref)]
      let k := projLoopStore m origin al.1 n.1 n.2 rest
      (k.1, al.2 ++ k.2)
    else
      let cur := storeGet st r.ref
      let pr := projPairs m origin cur.params x y
      let st1 := st.set r.ref ⟨cur.cmd, pr.1⟩
      let k := projLoopStore m origin st1 pr.2.1 pr.2.2 rest
      (k.1, r.ref :: k.2)

/-- Store version of `transformCore`. -/
def transformCoreStore (co : Collab) (mi : Option CSSMatrix)
    (origin : ℚ × ℚ × ℚ) (st : SegStore) (absRefs : List Nat)
    (normV : Path) : SegStore × Except String (List Nat) :=
  match mi with
  | none => (st, .error "invalid matrix instance")
  | some m =>
    if m.isIdentity then (st, .ok absRefs)
    else
      let r1 := tpLoopStore co.arcToCubic st (absRefs.zip normV) ⟨0, 0, 0, 0⟩
      let r2 := projLoopStore m origin r1.1 0 0 r1.2
      (r2.1, .ok r2.2)

/-- Store version of `transformPath`: the caller's path is a reference
list; its segment values are read, converted, and cloned into fresh cells,
after which the call proceeds as in the pure model but with explicit
allocation and in-place writes. -/
def transformPathStore (co : Collab) (st : SegStore) (refs : List Nat)
    (t : TransformArg) : SegStore × Except String (List Nat) :=
  let input := refs.map (storeGet st)
  let absV := pathToAbsolute input
  let normV := normalizePath absV
  let al := allocSegs st absV
  match t with
  | .absent => (al.1, .ok al.2)
  | .str s =>
    transformCoreStore co (some (co.parseMatrixString s)) (0, 0, 0)
      al.1 al.2 normV
  | .matrix m =>
    transformCoreStore co (some m) (0, 0, 0) al.1 al.2 normV
  | .descriptor d =>
    if descKeysEmpty d then (al.1, .ok al.2)
    else
      let d1 := withDefaultOrigin d
      transformCoreStore co (some (co.getSVGMatrix d1))
        (d1.origin.getD (0, 0, 0)) al.1 al.2 normV

/-! ## Theorems -/

/-- C10: the invalid-matrix error branch of transformPath is unreachable:
for every input path and every transform argument (string, CSSMatrix,
descriptor object, or absent), the matrix variable is assigned a matrix
instance on every control path before the check, so transformPath never
returns that error. -/
theorem transformPath_never_invalid_matrix (co : Collab) (p : Path)
    (t : TransformArg) :
    transformPath co p t ≠ Except.error "invalid matrix instance" := by
  cases t with
  | absent => simp [transformPath]
  | str s =>
    simp only [transformPath, transformCore]
    split <;> simp
  | matrix m =>
    simp only [transformPath, transformCore]
    split <;> simp
  | descriptor d =>
    simp only [transformPath, transformCore]
    split
    · simp
    · split <;> simp

/-- C1: for every path and every transform argument denoting the identity
(absent transform, empty descriptor, or a matrix / composed descriptor
matrix equal to the identity), transformPath returns exactly the
absolute-form copy of the path. -/
theorem transformPath_identity_arg (co : Collab) (p : Path)
    (t : TransformArg) (h : identityArg co.getSVGMatrix t) :
    transformPath co p t = Except.ok (pathToAbsolute p) := by
  cases t with
  | absent => simp [transformPath]
  | str s => exact absurd h (by simp [identityArg])
  | matrix m =>
    have hm : m.isIdentity := h
    simp [transformPath, transformCore, if_pos hm]
  | descriptor d =>
    by_cases he : descKeysEmpty d
    · simp [transformPath, if_pos he]
    · have hm : (co.getSVGMatrix (withDefaultOrigin d)).isIdentity :=
        (h.resolve_left he)
      simp [transformPath, if_neg he, transformCore, if_pos hm]

/-- C1 witness: a concrete identity-denoting call (absent transform) on a
concrete relative path. -/
theorem transformPath_identity_arg_witness :
    identityArg (fun _ => CSSMatrix.identityM) TransformArg.absent ∧
      transformPath
        ⟨fun _ => CSSMatrix.identityM, fun _ => CSSMatrix.identityM,
          fun _ _ _ _ _ _ _ _ _ => []⟩
        [⟨'m', [3, 4]⟩, ⟨'l', [1, 2]⟩] TransformArg.absent =
        Except.ok (pathToAbsolute [⟨'m', [3, 4]⟩, ⟨'l', [1, 2]⟩]) ∧
      pathToAbsolute [⟨'m', [3, 4]⟩, ⟨'l', [1, 2]⟩] =
        [⟨'M', [3, 4]⟩, ⟨'L', [4, 6]⟩] :=
  ⟨trivial, transformPath_identity_arg _ _ _ trivial, by
    simp +decide only [pathToAbsolute, toAbsoluteLoop, toAbsoluteSegment,
      addPairXY, lastPoint]
    norm_num
    all_goals decide⟩

/-- C3: in the mapping pass of transformPath, a record coming from the
line family (command L, H or V) is projected through `projection2d`, and
the produced segment keeps command `H` only when the projected y equals the
running point's y, keeps `V` only when the projected x equals the running
x, and is the general line `L` with both projected coordinates whenever
both coordinates moved. -/
theorem transformPath_lhv_classification
    (m : CSSMatrix) (origin : ℚ × ℚ × ℚ) (x y px py lx ly : ℚ)
    (c : Char) (fb : Seg) (rest : List TRes)
    (hc : c = 'L' ∨ c = 'H' ∨ c = 'V')
    (hl : (lx, ly) = projection2d m (px, py) origin) :
    projLoop m origin x y (⟨fb, c, px, py⟩ :: rest) =
      lhvSegment x y lx ly fb :: projLoop m origin lx ly rest ∧
    ((lhvSegment x y lx ly fb).cmd = 'H' → ly = y) ∧
    ((lhvSegment x y lx ly fb).cmd = 'V' → lx = x) ∧
    (lx ≠ x ∧ ly ≠ y → lhvSegment x y lx ly fb = ⟨'L', [lx, ly]⟩) := by
  refine ⟨?_, ?_, ?_, ?_⟩
  · simp only [projLoop, if_pos hc, ← hl]
  · intro h
    unfold lhvSegment at h
    split_ifs at h with h1 h2 h3
    · simp at h
    · exact h2.symm
    · simp at h
    · tauto
  · intro h
    unfold lhvSegment at h
    split_ifs at h with h1 h2 h3
    · simp at h
    · simp at h
    · exact h3.symm
    · tauto
  · intro h
    unfold lhvSegment
    rw [if_pos ⟨fun e => h.1 e.symm, fun e => h.2 e.symm⟩]

/-- C3 witness: identity matrix, origin 0, concrete running point and
endpoint. -/
theorem transformPath_lhv_classification_witness :
    ((('L' : Char) = 'L' ∨ ('L' : Char) = 'H' ∨ ('L' : Char) = 'V') ∧
      ((5 : ℚ), (7 : ℚ)) = projection2d CSSMatrix.identityM (5, 7) (0, 0, 0)) ∧
    (projLoop CSSMatrix.identityM (0, 0, 0) 0 0
        (⟨⟨'L', [5, 7]⟩, 'L', 5, 7⟩ :: []) =
      lhvSegment 0 0 5 7 ⟨'L', [5, 7]⟩ ::
        projLoop CSSMatrix.identityM (0, 0, 0) 5 7 [] ∧
      ((lhvSegment 0 0 5 7 ⟨'L', [5, 7]⟩).cmd = 'H' → (7 : ℚ) = 0) ∧
      ((lhvSegment 0 0 5 7 ⟨'L', [5, 7]⟩).cmd = 'V' → (5 : ℚ) = 0) ∧
      ((5 : ℚ) ≠ 0 ∧ (7 : ℚ) ≠ 0 →
        lhvSegment 0 0 5 7 ⟨'L', [5, 7]⟩ = ⟨'L', [5, 7]⟩)) :=
  ⟨⟨Or.inl rfl, by
      norm_num [projection2d, CSSMatrix.transformPoint, CSSMatrix.identityM]⟩,
    transformPath_lhv_classification _ _ _ _ _ _ _ _ _ _ _ (Or.inl rfl)
      (by norm_num [projection2d, CSSMatrix.transformPoint, CSSMatrix.identityM])⟩

/-- The segments `fixArc` splits an extended cubic into either keep the
original command or are cubic segments. -/
theorem fixArcSplit_cmd {s s' : Seg} (h : s' ∈ fixArcSplit s) :
    s'.cmd = s.cmd ∨ s'.cmd = 'C' := by
  unfold fixArcSplit at h
  split at h
  · rcases List.mem_map.mp h with ⟨c, _, rfl⟩
    exact Or.inr rfl
  · simp only [List.mem_singleton] at h
    exact Or.inl (h ▸ rfl)

/-- `segmentToCubic` never returns an arc segment. -/
theorem segmentToCubic_cmd_ne_arc
    (a2c : ℚ → ℚ → ℚ → ℚ → ℚ → ℚ → ℚ → ℚ → ℚ → List ℚ)
    (n : Seg) (pp : PathParams) : (segmentToCubic a2c n pp).cmd ≠ 'A' := by
  unfold segmentToCubic
  split
  · simp
  · assumption

/-- Every record of `tpPieces` carries one of the pieces, with its command
letter cached. -/
theorem tpPieces_mem {ps : List Seg} {pp : PathParams} {r : TRes}
    (h : r ∈ (tpPieces ps pp).1) : ∃ p ∈ ps, r.s = p ∧ r.c = p.cmd := by
  induction ps generalizing pp with
  | nil => simp [tpPieces] at h
  | cons p rest ih =>
    simp only [tpPieces, List.mem_cons] at h
    rcases h with h | h
    · exact ⟨p, List.mem_cons_self _ _, by rw [h], by rw [h]⟩
    · rcases ih h with ⟨q, hq, h1, h2⟩
      exact ⟨q, List.mem_cons_of_mem _ hq, h1, h2⟩

/-- Invariant of the first transformPath pass: every record stores a
non-arc segment, with its command letter cached. -/
theorem tpLoop_mem (a2c : ℚ → ℚ → ℚ → ℚ → ℚ → ℚ → ℚ → ℚ → ℚ → List ℚ)
    (l : List (Seg × Seg)) (pp : PathParams) (r : TRes)
    (h : r ∈ tpLoop a2c l pp) : r.c = r.s.cmd ∧ r.s.cmd ≠ 'A' := by
  induction l generalizing pp with
  | nil => simp [tpLoop] at h
  | cons an rest ih =>
    rcases an with ⟨a, n⟩
    rw [tpLoop] at h
    split at h
    · simp only [List.mem_append] at h
      rcases h with h | h
      · rcases tpPieces_mem h with ⟨p, hp, h1, h2⟩
        refine ⟨by rw [h1, h2], ?_⟩
        rcases fixArcSplit_cmd hp with hcmd | hcmd
        · rw [h1, hcmd]
          exact segmentToCubic_cmd_ne_arc a2c n pp
        · rw [h1, hcmd]
          decide
      · exact ih _ h
    · rcases List.mem_cons.mp h with h | h
      · subst h
        exact ⟨rfl, by assumption⟩
      · exact ih _ h

/-- The segment the L/H/V branch produces is one of the three line forms or
the stored fallback segment. -/
theorem lhvSegment_cases (x y lx ly : ℚ) (fb : Seg) :
    (lhvSegment x y lx ly fb).cmd = 'L' ∨ (lhvSegment x y lx ly fb).cmd = 'H' ∨
      (lhvSegment x y lx ly fb).cmd = 'V' ∨ lhvSegment x y lx ly fb = fb := by
  unfold lhvSegment
  split_ifs <;> simp

/-- The mapping pass yields no arc segment when no record stores one. -/
theorem projLoop_no_arc (m : CSSMatrix) (origin : ℚ × ℚ × ℚ)
    (res : List TRes) (x y : ℚ)
    (hres : ∀ r ∈ res, r.c = r.s.cmd ∧ r.s.cmd ≠ 'A') :
    ∀ s ∈ projLoop m origin x y res, s.cmd ≠ 'A' := by
  induction res generalizing x y with
  | nil => simp [projLoop]
  | cons r rest ih =>
    intro s hs
    rw [projLoop] at hs
    split at hs
    · rcases List.mem_cons.mp hs with h | h
      · subst h
        rcases lhvSegment_cases x y (projection2d m (r.x, r.y) origin).1
            (projection2d m (r.x, r.y) origin).2 r.s with h | h | h | h
        · rw [h]; decide
        · rw [h]; decide
        · rw [h]; decide
        · rw [h]; exact (hres r (List.mem_cons_self _ _)).2
      · exact ih _ _ (fun q hq => hres q (List.mem_cons_of_mem _ hq)) s h
    · rcases List.mem_cons.mp hs with h | h
      · subst h
        exact (hres r (List.mem_cons_self _ _)).2
      · exact ih _ _ (fun q hq => hres q (List.mem_cons_of_mem _ hq)) s h

/-- C2: for every path and every non-identity transform matrix, every
elliptical-arc segment is converted to cubic segments before projection, so
no segment of the returned path has command `A`. -/
theorem transformPath_no_arc_output (co : Collab) (p : Path) (m : CSSMatrix)
    (out : Path) (hm : ¬ m.isIdentity)
    (h : transformPath co p (.matrix m) = Except.ok out) :
    ∀ s ∈ out, s.cmd ≠ 'A' := by
  have hout : out = projLoop m (0, 0, 0) 0 0
      (tpLoop co.arcToCubic
        ((pathToAbsolute p).zip (normalizePath (pathToAbsolute p)))
        ⟨0, 0, 0, 0⟩) := by
    simp only [transformPath, transformCore, if_neg hm] at h
    exact (Except.ok.injEq _ _ ▸ h).symm
  subst hout
  exact projLoop_no_arc m (0, 0, 0) _ 0 0
    (fun r hr => tpLoop_mem co.arcToCubic _ _ r hr)

/-- C2 witness: a doubling matrix applied to a path with one arc segment;
the arc is flattened (here by a chord-degenerate arc collaborator) and the
output has no `A` command. -/
theorem transformPath_no_arc_output_witness :
    ¬ (⟨2, 0, 0, 0, 0, 1, 0, 0, 0, 0, 1, 0, 0, 0, 0, 1⟩ :
        CSSMatrix).isIdentity ∧
    transformPath
        ⟨fun _ => CSSMatrix.identityM, fun _ => CSSMatrix.identityM,
          fun x1 y1 _ _ _ _ _ x2 y2 => [x1, y1, x2, y2, x2, y2]⟩
        [⟨'M', [0, 0]⟩, ⟨'A', [1, 1, 0, 0, 1, 4, 0]⟩]
        (.matrix ⟨2, 0, 0, 0, 0, 1, 0, 0, 0, 0, 1, 0, 0, 0, 0, 1⟩) =
      Except.ok [⟨'M', [0, 0]⟩, ⟨'C', [0, 0, 8, 0, 8, 0]⟩] ∧
    ∀ s ∈ ([⟨'M', [0, 0]⟩, ⟨'C', [0, 0, 8, 0, 8, 0]⟩] : Path),
      s.cmd ≠ 'A' := by
  have hm : ¬ (⟨2, 0, 0, 0, 0, 1, 0, 0, 0, 0, 1, 0, 0, 0, 0, 1⟩ :
      CSSMatrix).isIdentity := by decide
  have hev : transformPath
      ⟨fun _ => CSSMatrix.identityM, fun _ => CSSMatrix.identityM,
        fun x1 y1 _ _ _ _ _ x2 y2 => [x1, y1, x2, y2, x2, y2]⟩
      [⟨'M', [0, 0]⟩, ⟨'A', [1, 1, 0, 0, 1, 4, 0]⟩]
      (.matrix ⟨2, 0, 0, 0, 0, 1, 0, 0, 0, 0, 1, 0, 0, 0, 0, 1⟩) =
      Except.ok [⟨'M', [0, 0]⟩, ⟨'C', [0, 0, 8, 0, 8, 0]⟩] := by
    simp +decide [transformPath, transformCore, pathToAbsolute,
      toAbsoluteLoop, toAbsoluteSegment, addPairXY, lastPoint, normalizePath,
      normalizeLoop, normalizeSegment, normStateUpdate, tpLoop, tpPieces,
      segmentToCubic, fixArcSplit, chunk6, updateParams, projLoop, projPairs,
      projection2d, CSSMatrix.transformPoint, lhvSegment]
    norm_num
  exact ⟨hm, hev,
    transformPath_no_arc_output _ _ _ _ hm hev⟩

/-- The absolute converter emits only uppercase, valid commands. -/
theorem toAbsoluteSegment_upper (st : AbsState) (s : Seg)
    (h : validCmd s.cmd) :
    ((toAbsoluteSegment st s).1).cmd.isUpper = true ∧
      validCmd ((toAbsoluteSegment st s).1).cmd := by
  simp only [validCmd, List.mem_cons, List.not_mem_nil, or_false] at h
  rcases h with h | h | h | h | h | h | h | h | h | h |
    h | h | h | h | h | h | h | h | h | h <;>
    simp +decide [toAbsoluteSegment, h, validCmd]

/-- Threaded version of `toAbsoluteSegment_upper`. -/
theorem toAbsoluteLoop_upper (l : List Seg) (st : AbsState)
    (hv : ∀ s ∈ l, validCmd s.cmd) :
    ∀ o ∈ toAbsoluteLoop st l, o.cmd.isUpper = true ∧ validCmd o.cmd := by
  induction l generalizing st with
  | nil => simp [toAbsoluteLoop]
  | cons s rest ih =>
    intro o ho
    rcases List.mem_cons.mp ho with h | h
    · subst h
      exact toAbsoluteSegment_upper st s (hv s (List.mem_cons_self _ _))
    · exact ih _ (fun q hq => hv q (List.mem_cons_of_mem _ hq)) o h

/-- `pathToAbsolute` of a valid path has only uppercase, valid commands. -/
theorem pathToAbsolute_upper (p : Path) (hv : ∀ s ∈ p, validCmd s.cmd) :
    ∀ o ∈ pathToAbsolute p, o.cmd.isUpper = true ∧ validCmd o.cmd :=
  toAbsoluteLoop_upper p _ hv

/-- The normalizer keeps commands uppercase and valid. -/
theorem normalizeSegment_upper (st : NormState) (s : Seg)
    (h : s.cmd.isUpper = true ∧ validCmd s.cmd) :
    (normalizeSegment st s).cmd.isUpper = true ∧
      validCmd (normalizeSegment st s).cmd := by
  unfold normalizeSegment
  split_ifs <;> first | exact h | (constructor <;> simp +decide [validCmd])

/-- Threaded version of `normalizeSegment_upper`. -/
theorem normalizeLoop_upper (l : List Seg) (st : NormState)
    (hv : ∀ s ∈ l, s.cmd.isUpper = true ∧ validCmd s.cmd) :
    ∀ o ∈ normalizeLoop st l, o.cmd.isUpper = true ∧ validCmd o.cmd := by
  induction l generalizing st with
  | nil => simp [normalizeLoop]
  | cons s rest ih =>
    intro o ho
    rcases List.mem_cons.mp ho with h | h
    · subst h
      exact normalizeSegment_upper st s (hv s (List.mem_cons_self _ _))
    · exact ih _ (fun q hq => hv q (List.mem_cons_of_mem _ hq)) o h

/-- `normalizePath` of a valid path has only uppercase commands. -/
theorem normalizePath_upper (p : Path) (hv : ∀ s ∈ p, validCmd s.cmd) :
    ∀ o ∈ normalizePath p, o.cmd.isUpper = true ∧ validCmd o.cmd := by
  unfold normalizePath
  exact normalizeLoop_upper _ _ (pathToAbsolute_upper p hv)

/-- `segmentToCubic` returns a cubic or the segment's own command. -/
theorem segmentToCubic_cmd (a2c : ℚ → ℚ → ℚ → ℚ → ℚ → ℚ → ℚ → ℚ → ℚ → List ℚ)
    (n : Seg) (pp : PathParams) :
    (segmentToCubic a2c n pp).cmd = 'C' ∨ (segmentToCubic a2c n pp).cmd = n.cmd := by
  unfold segmentToCubic
  split
  · exact Or.inl rfl
  · exact Or.inr rfl

/-- The first pass keeps stored segment commands uppercase. -/
theorem tpLoop_upper (a2c : ℚ → ℚ → ℚ → ℚ → ℚ → ℚ → ℚ → ℚ → ℚ → List ℚ)
    (l : List (Seg × Seg)) (pp : PathParams)
    (hv : ∀ q ∈ l, q.1.cmd.isUpper = true ∧ q.2.cmd.isUpper = true) :
    ∀ r ∈ tpLoop a2c l pp, r.s.cmd.isUpper = true := by
  induction l generalizing pp with
  | nil => simp [tpLoop]
  | cons an rest ih =>
    rcases an with ⟨a, n⟩
    intro r hr
    rw [tpLoop] at hr
    split at hr
    · rcases List.mem_append.mp hr with h | h
      · rcases tpPieces_mem h with ⟨p, hp, h1, _⟩
        rw [h1]
        rcases fixArcSplit_cmd hp with hcmd | hcmd
        · rw [hcmd]
          rcases segmentToCubic_cmd a2c n pp with hc | hc
          · rw [hc]; decide
          · rw [hc]
            exact (hv _ (List.mem_cons_self _ _)).2
        · rw [hcmd]; decide
      · exact ih _ (fun q hq => hv q (List.mem_cons_of_mem _ hq)) r h
    · rcases List.mem_cons.mp hr with h | h
      · subst h
        exact (hv _ (List.mem_cons_self _ _)).1
      · exact ih _ (fun q hq => hv q (List.mem_cons_of_mem _ hq)) r h

/-- The mapping pass yields only uppercase commands when every record
stores one. -/
theorem projLoop_upper (m : CSSMatrix) (origin : ℚ × ℚ × ℚ)
    (res : List TRes) (x y : ℚ)
    (hres : ∀ r ∈ res, r.s.cmd.isUpper = true) :
    ∀ s ∈ projLoop m origin x y res, s.cmd.isUpper = true := by
  induction res generalizing x y with
  | nil => simp [projLoop]
  | cons r rest ih =>
    intro s hs
    rw [projLoop] at hs
    split at hs
    · rcases List.mem_cons.mp hs with h | h
      · subst h
        rcases lhvSegment_cases x y (projection2d m (r.x, r.y) origin).1
            (projection2d m (r.x, r.y) origin).2 r.s with h | h | h | h
        · rw [h]; decide
        · rw [h]; decide
        · rw [h]; decide
        · rw [h]; exact hres r (List.mem_cons_self _ _)
      · exact ih _ _ (fun q hq => hres q (List.mem_cons_of_mem _ hq)) s h
    · rcases List.mem_cons.mp hs with h | h
      · subst h
        exact hres r (List.mem_cons_self _ _)
      · exact ih _ _ (fun q hq => hres q (List.mem_cons_of_mem _ hq)) s h

/-- C9: for every valid input path and every transform argument (including
an absent or empty one and an identity matrix), every segment of the
returned path has an uppercase command letter: the result is entirely in
absolute form. -/
theorem transformPath_output_absolute (co : Collab) (p : Path)
    (t : TransformArg) (out : Path) (hv : ∀ s ∈ p, validCmd s.cmd)
    (h : transformPath co p t = Except.ok out) :
    ∀ s ∈ out, s.cmd.isUpper = true := by
  have habs : ∀ o ∈ pathToAbsolute p, o.cmd.isUpper = true :=
    fun o ho => (pathToAbsolute_upper p hv o ho).1
  have hproj : ∀ (m : CSSMatrix) (origin : ℚ × ℚ × ℚ),
      ∀ s ∈ projLoop m origin 0 0
        (tpLoop co.arcToCubic
          ((pathToAbsolute p).zip (normalizePath (pathToAbsolute p)))
          ⟨0, 0, 0, 0⟩), s.cmd.isUpper = true := by
    intro m origin s hs
    refine projLoop_upper m origin _ 0 0 ?_ s hs
    intro r hr
    refine tpLoop_upper co.arcToCubic _ _ ?_ r hr
    intro q hq
    have hz := List.of_mem_zip hq
    constructor
    · exact (pathToAbsolute_upper p hv _ hz.1).1
    · have hvabs : ∀ s ∈ pathToAbsolute p, validCmd s.cmd :=
        fun o ho => (pathToAbsolute_upper p hv o ho).2
      exact (normalizePath_upper (pathToAbsolute p) hvabs _ hz.2).1
  cases t with
  | absent =>
    simp only [transformPath, Except.ok.injEq] at h
    exact h ▸ habs
  | str s0 =>
    simp only [transformPath, transformCore] at h
    split at h
    · simp only [Except.ok.injEq] at h
      exact h ▸ habs
    · simp only [Except.ok.injEq] at h
      exact h ▸ hproj _ _
  | matrix m =>
    simp only [transformPath, transformCore] at h
    split at h
    · simp only [Except.ok.injEq] at h
      exact h ▸ habs
    · simp only [Except.ok.injEq] at h
      exact h ▸ hproj _ _
  | descriptor d =>
    simp only [transformPath, transformCore] at h
    split at h
    · simp only [Except.ok.injEq] at h
      exact h ▸ habs
    · split at h
      · simp only [Except.ok.injEq] at h
        exact h ▸ habs
      · simp only [Except.ok.injEq] at h
        exact h ▸ hproj _ _

/-- C9 witness: an absent transform on a concrete relative path still
yields an all-uppercase (absolute) result. -/
theorem transformPath_output_absolute_witness :
    (∀ s ∈ ([⟨'m', [1, 1]⟩, ⟨'v', [2]⟩] : Path), validCmd s.cmd) ∧
    transformPath
        ⟨fun _ => CSSMatrix.identityM, fun _ => CSSMatrix.identityM,
          fun _ _ _ _ _ _ _ _ _ => []⟩
        [⟨'m', [1, 1]⟩, ⟨'v', [2]⟩] TransformArg.absent =
      Except.ok [⟨'M', [1, 1]⟩, ⟨'V', [3]⟩] ∧
    ∀ s ∈ ([⟨'M', [1, 1]⟩, ⟨'V', [3]⟩] : Path), s.cmd.isUpper = true := by
  have hv : ∀ s ∈ ([⟨'m', [1, 1]⟩, ⟨'v', [2]⟩] : Path), validCmd s.cmd := by
    decide
  have hev : transformPath
      ⟨fun _ => CSSMatrix.identityM, fun _ => CSSMatrix.identityM,
        fun _ _ _ _ _ _ _ _ _ => []⟩
      [⟨'m', [1, 1]⟩, ⟨'v', [2]⟩] TransformArg.absent =
      Except.ok [⟨'M', [1, 1]⟩, ⟨'V', [3]⟩] := by
    simp +decide [transformPath, pathToAbsolute, toAbsoluteLoop,
      toAbsoluteSegment, addPairXY, lastPoint]
    norm_num
  exact ⟨hv, hev, transformPath_output_absolute _ _ _ _ hv hev⟩

/-- C5: for every transform descriptor that omits the origin field,
transformPath behaves as if the origin were [0,0,0]: the result equals the
result for the same descriptor with origin explicitly set to (0,0,0). The
hypothesis on the matrix collaborator is its contract from section 6: a
descriptor whose transform fields are all absent composes to the identity
matrix ("each optional, defaulting to identity"). -/
theorem transformPath_omitted_origin (co : Collab) (p : Path)
    (d : TransformObject)
    (hgm : ∀ d0 : TransformObject, d0.translate = none → d0.rotate = none →
      d0.scale = none → d0.skew = none → d0.matrix = none →
      (co.getSVGMatrix d0).isIdentity)
    (hno : d.origin = none) :
    transformPath co p (.descriptor d) =
      transformPath co p
        (.descriptor { d with origin := some ((0 : ℚ), (0 : ℚ), (0 : ℚ)) }) := by
  have he' : ¬ descKeysEmpty { d with origin := some ((0 : ℚ), (0 : ℚ), (0 : ℚ)) } := by
    intro hc
    unfold descKeysEmpty at hc
    exact Option.noConfusion hc.2.2.2.2.2
  have hw2 : withDefaultOrigin { d with origin := some ((0 : ℚ), (0 : ℚ), (0 : ℚ)) } =
      { d with origin := some ((0 : ℚ), (0 : ℚ), (0 : ℚ)) } := by
    unfold withDefaultOrigin
    simp
  by_cases he : descKeysEmpty d
  · have hfields := he
    unfold descKeysEmpty at hfields
    have hid : (co.getSVGMatrix (withDefaultOrigin
        { d with origin := some ((0 : ℚ), (0 : ℚ), (0 : ℚ)) })).isIdentity := by
      rw [hw2]
      exact hgm _ hfields.1 hfields.2.1 hfields.2.2.1 hfields.2.2.2.1
        hfields.2.2.2.2.1
    simp only [transformPath, if_pos he, if_neg he', transformCore,
      if_pos hid]
  · have hd1 : withDefaultOrigin d =
        { d with origin := some ((0 : ℚ), (0 : ℚ), (0 : ℚ)) } := by
      unfold withDefaultOrigin
      rw [if_pos hno]
      rfl
    simp only [transformPath, if_neg he, if_neg he', hd1, hw2]

/-- C5 witness: the empty descriptor (origin omitted) against the same
descriptor with an explicit zero origin, on a concrete path, with an
identity-respecting matrix collaborator. -/
theorem transformPath_omitted_origin_witness :
    ((∀ d0 : TransformObject, d0.translate = none → d0.rotate = none →
        d0.scale = none → d0.skew = none → d0.matrix = none →
        ((fun (_ : TransformObject) => CSSMatrix.identityM) d0).isIdentity) ∧
      (({} : TransformObject).origin = none)) ∧
    transformPath
        ⟨fun _ => CSSMatrix.identityM, fun _ => CSSMatrix.identityM,
          fun _ _ _ _ _ _ _ _ _ => []⟩
        [⟨'M', [1, 2]⟩] (.descriptor {}) =
      transformPath
        ⟨fun _ => CSSMatrix.identityM, fun _ => CSSMatrix.identityM,
          fun _ _ _ _ _ _ _ _ _ => []⟩
        [⟨'M', [1, 2]⟩]
        (.descriptor { origin := some ((0 : ℚ), (0 : ℚ), (0 : ℚ)) }) ∧
    transformPath
        ⟨fun _ => CSSMatrix.identityM, fun _ => CSSMatrix.identityM,
          fun _ _ _ _ _ _ _ _ _ => []⟩
        [⟨'M', [1, 2]⟩] (.descriptor {}) =
      Except.ok [⟨'M', [1, 2]⟩] := by
  refine ⟨⟨fun _ _ _ _ _ _ => rfl, rfl⟩, ?_, ?_⟩
  · exact transformPath_omitted_origin _ _ _ (fun _ _ _ _ _ _ => rfl) rfl
  · simp +decide [transformPath, pathToAbsolute, toAbsoluteLoop,
      toAbsoluteSegment, lastPoint, descKeysEmpty]

/-- Reading below the original length is unaffected by allocation. -/
theorem storeGet_append (st ss : SegStore) (j : Nat) (h : j < st.length) :
    storeGet (st ++ ss) j = storeGet st j := by
  unfold storeGet
  exact List.getD_append st ss _ j h

/-- Reading a cell other than the written one is unaffected. -/
theorem storeGet_set_ne (st : SegStore) (i j : Nat) (x : Seg) (h : i ≠ j) :
    storeGet (st.set i x) j = storeGet st j := by
  unfold storeGet
  simp only [List.getD]
  rw [List.get?_set_ne _ _ h]

/-- Every piece record of the store model references one of the allocated
cells. -/
theorem tpPiecesStore_ref {ps : List (Nat × Seg)} {pp : PathParams}
    {r : TResRef} (h : r ∈ (tpPiecesStore ps pp).1) :
    ∃ q ∈ ps, r.ref = q.1 := by
  induction ps generalizing pp with
  | nil => simp [tpPiecesStore] at h
  | cons q rest ih =>
    rcases q with ⟨ir, p⟩
    simp only [tpPiecesStore, List.mem_cons] at h
    rcases h with h | h
    · exact ⟨(ir, p), List.mem_cons_self _ _, by rw [h]⟩
    · rcases ih h with ⟨q', hq', h1⟩
      exact ⟨q', List.mem_cons_of_mem _ hq', h1⟩

/-- Frame property of the first store pass: the original prefix of the
store is untouched, the store only grows, and every produced reference
stays at or above the bound. -/
theorem tpLoopStore_frame (a2c : ℚ → ℚ → ℚ → ℚ → ℚ → ℚ → ℚ → ℚ → ℚ → List ℚ)
    (l : List (Nat × Seg)) (st : SegStore) (pp : PathParams) (b : Nat)
    (hb : b ≤ st.length) (href : ∀ q ∈ l, b ≤ q.1) :
    b ≤ (tpLoopStore a2c st l pp).1.length ∧
    (∀ j < b, storeGet (tpLoopStore a2c st l pp).1 j = storeGet st j) ∧
    (∀ r ∈ (tpLoopStore a2c st l pp).2, b ≤ r.ref) := by
  induction l generalizing st pp with
  | nil =>
    refine ⟨hb, fun j _ => rfl, ?_⟩
    simp [tpLoopStore]
  | cons q rest ih =>
    rcases q with ⟨ia, n⟩
    rw [tpLoopStore]
    split
    · simp only [allocSegs]
      have hb2 : b ≤ (st ++ fixArcSplit (segmentToCubic a2c n pp)).length := by
        rw [List.length_append]
        omega
      have ihr := ih (st ++ fixArcSplit (segmentToCubic a2c n pp))
        (tpPiecesStore
          ((List.range' st.length
              (fixArcSplit (segmentToCubic a2c n pp)).length).zip
            (fixArcSplit (segmentToCubic a2c n pp))) pp).2 hb2
        (fun q hq => href q (List.mem_cons_of_mem _ hq))
      refine ⟨ihr.1, ?_, ?_⟩
      · intro j hj
        rw [ihr.2.1 j hj, storeGet_append]
        omega
      · intro r hr
        simp only [allocSegs, List.mem_append] at hr
        rcases hr with hr | hr
        · rcases tpPiecesStore_ref hr with ⟨q', hq', h1⟩
          have := (List.of_mem_zip hq').1
          rw [List.mem_range'] at this
          omega
        · exact ihr.2.2 r hr
    · have ihr := ih st (updateParams n) hb
        (fun q hq => href q (List.mem_cons_of_mem _ hq))
      refine ⟨ihr.1, ihr.2.1, ?_⟩
      intro r hr
      rcases List.mem_cons.mp hr with h | h
      · rw [h]
        exact href _ (List.mem_cons_self _ _)
      · exact ihr.2.2 r h

/-- Frame property of the mapping store pass: writes only hit cells at or
above the bound, so the original prefix is untouched. -/
theorem projLoopStore_frame (m : CSSMatrix) (origin : ℚ × ℚ × ℚ)
    (res : List TResRef) (st : SegStore) (x y : ℚ) (b : Nat)
    (hb : b ≤ st.length) (href : ∀ r ∈ res, b ≤ r.ref) :
    b ≤ (projLoopStore m origin st x y res).1.length ∧
    ∀ j < b, storeGet (projLoopStore m origin st x y res).1 j =
      storeGet st j := by
  induction res generalizing st x y with
  | nil => exact ⟨hb, fun j _ => rfl⟩
  | cons r rest ih =>
    rw [projLoopStore]
    split
    · simp only [allocSegs]
      have hb2 : b ≤ (st ++
          [lhvSegment x y (projection2d m (r.x, r.y) origin).1
            (projection2d m (r.x, r.y) origin).2 (storeGet st r.ref)]).length := by
        rw [List.length_append]
        omega
      have ihr := ih (st ++
          [lhvSegment x y (projection2d m (r.x, r.y) origin).1
            (projection2d m (r.x, r.y) origin).2 (storeGet st r.ref)])
        (projection2d m (r.x, r.y) origin).1
        (projection2d m (r.x, r.y) origin).2 hb2
        (fun q hq => href q (List.mem_cons_of_mem _ hq))
      refine ⟨ihr.1, ?_⟩
      intro j hj
      rw [ihr.2 j hj, storeGet_append]
      omega
    · have hbr : b ≤ r.ref := href r (List.mem_cons_self _ _)
      have hb2 : b ≤ (st.set r.ref
          ⟨(storeGet st r.ref).cmd,
            (projPairs m origin (storeGet st r.ref).params x y).1⟩).length := by
        rw [List.length_set]
        exact hb
      have ihr := ih (st.set r.ref
          ⟨(storeGet st r.ref).cmd,
            (projPairs m origin (storeGet st r.ref).params x y).1⟩)
        (projPairs m origin (storeGet st r.ref).params x y).2.1
        (projPairs m origin (storeGet st r.ref).params x y).2.2 hb2
        (fun q hq => href q (List.mem_cons_of_mem _ hq))
      refine ⟨ihr.1, ?_⟩
      intro j hj
      rw [ihr.2 j hj, storeGet_set_ne]
      omega

/-- The original prefix of the store survives a whole `transformPathStore`
call: every write and allocation happens at or above the entry length. -/
theorem transformPathStore_prefix (co : Collab) (st : SegStore)
    (refs : List Nat) (t : TransformArg) :
    ∀ j < st.length,
      storeGet (transformPathStore co st refs t).1 j = storeGet st j := by
  have hcore : ∀ (mi : Option CSSMatrix) (origin : ℚ × ℚ × ℚ)
      (absV : Path) (normV : Path),
      ∀ j < st.length,
        storeGet (transformCoreStore co mi origin (st ++ absV)
          (List.range' st.length absV.length) normV).1 j = storeGet st j := by
    intro mi origin absV normV j hj
    match mi with
    | none => exact storeGet_append st absV j hj
    | some m =>
      rw [transformCoreStore]
      split
      · exact storeGet_append st absV j hj
      · have hb : st.length ≤ (st ++ absV).length := by
          rw [List.length_append]
          omega
        have href : ∀ q ∈ (List.range' st.length absV.length).zip normV,
            st.length ≤ q.1 := by
          intro q hq
          have := (List.of_mem_zip hq).1
          rw [List.mem_range'] at this
          omega
        have h1 := tpLoopStore_frame co.arcToCubic _ (st ++ absV)
          ⟨0, 0, 0, 0⟩ st.length hb href
        have h2 := projLoopStore_frame m origin _ _ 0 0 st.length h1.1 h1.2.2
        rw [h2.2 j hj, h1.2.1 j hj, storeGet_append st absV j hj]
  cases t with
  | absent =>
    intro j hj
    exact storeGet_append st _ j hj
  | str s => exact hcore _ _ _ _
  | matrix m => exact hcore _ _ _ _
  | descriptor d =>
    intro j hj
    rw [transformPathStore]
    split
    · exact storeGet_append st _ j hj
    · exact hcore _ _ _ _ j hj

/-- C4: transformPath does not mutate its input: for every store, every
caller-supplied reference list (the caller's path array) whose references
are in range, and every transform argument, reading the caller's segments
back after the call yields exactly the segments from before the call. -/
theorem transformPath_no_input_mutation (co : Collab) (st : SegStore)
    (refs : List Nat) (t : TransformArg)
    (h : ∀ i ∈ refs, i < st.length) :
    refs.map (storeGet (transformPathStore co st refs t).1) =
      refs.map (storeGet st) :=
  List.map_congr_left
    (fun i hi => transformPathStore_prefix co st refs t i (h i hi))

/-- C4 witness: a two-segment caller path with an arc, transformed by a
non-identity matrix; the caller's cells are bare after the call. -/
theorem transformPath_no_input_mutation_witness :
    (∀ i ∈ [0, 1], i < ([⟨'M', [0, 0]⟩, ⟨'A', [1, 1, 0, 0, 1, 4, 0]⟩] :
      SegStore).length) ∧
    ([0, 1].map (storeGet
      (transformPathStore
        ⟨fun _ => CSSMatrix.identityM, fun _ => CSSMatrix.identityM,
          fun x1 y1 _ _ _ _ _ x2 y2 => [x1, y1, x2, y2, x2, y2]⟩
        [⟨'M', [0, 0]⟩, ⟨'A', [1, 1, 0, 0, 1, 4, 0]⟩] [0, 1]
        (.matrix ⟨2, 0, 0, 0, 0, 1, 0, 0, 0, 0, 1, 0, 0, 0, 0, 1⟩)).1) =
      [0, 1].map (storeGet [⟨'M', [0, 0]⟩, ⟨'A', [1, 1, 0, 0, 1, 4, 0]⟩])) :=
  ⟨by decide,
    transformPath_no_input_mutation _ _ _ _ (by decide)⟩

/-- A segment whose command is one of the absolute letters (or not a
command at all) passes through the absolute converter unchanged. -/
theorem toAbsoluteSegment_fst_id (st : AbsState) (o : Seg)
    (h : o.cmd ∈ (['M', 'L', 'C', 'S', 'Q', 'T', 'H', 'V', 'A', 'Z'] :
        List Char) ∨ ¬ validCmd o.cmd) :
    (toAbsoluteSegment st o).1 = o := by
  obtain ⟨c, ps⟩ := o
  rcases h with h | h
  · simp only [List.mem_cons, List.not_mem_nil, or_false] at h
    rcases h with h | h | h | h | h | h | h | h | h | h <;>
      subst h <;> simp +decide [toAbsoluteSegment]
  · simp only [validCmd, List.mem_cons, List.not_mem_nil, or_false,
      not_or] at h
    simp only [toAbsoluteSegment]
    simp [h.1, h.2.1, h.2.2.1, h.2.2.2.1, h.2.2.2.2.1, h.2.2.2.2.2.1,
      h.2.2.2.2.2.2.1, h.2.2.2.2.2.2.2.1, h.2.2.2.2.2.2.2.2.1,
      h.2.2.2.2.2.2.2.2.2.1, h.2.2.2.2.2.2.2.2.2.2.1,
      h.2.2.2.2.2.2.2.2.2.2.2.1, h.2.2.2.2.2.2.2.2.2.2.2.2.1,
      h.2.2.2.2.2.2.2.2.2.2.2.2.2.1, h.2.2.2.2.2.2.2.2.2.2.2.2.2.2.1,
      h.2.2.2.2.2.2.2.2.2.2.2.2.2.2.2.1,
      h.2.2.2.2.2.2.2.2.2.2.2.2.2.2.2.2.1,
      h.2.2.2.2.2.2.2.2.2.2.2.2.2.2.2.2.2.1,
      h.2.2.2.2.2.2.2.2.2.2.2.2.2.2.2.2.2.2.1,
      h.2.2.2.2.2.2.2.2.2.2.2.2.2.2.2.2.2.2.2]

/-- Every output of the absolute converter is in the stable class of
`toAbsoluteSegment_fst_id`. -/
theorem toAbsoluteSegment_out_class (st : AbsState) (s : Seg) :
    ((toAbsoluteSegment st s).1).cmd ∈ (['M', 'L', 'C', 'S', 'Q', 'T', 'H',
        'V', 'A', 'Z'] : List Char) ∨
      ¬ validCmd ((toAbsoluteSegment st s).1).cmd := by
  obtain ⟨c, ps⟩ := s
  by_cases hv : validCmd c
  · left
    simp only [validCmd, List.mem_cons, List.not_mem_nil, or_false] at hv
    rcases hv with h | h | h | h | h | h | h | h | h | h |
      h | h | h | h | h | h | h | h | h | h <;>
      subst h <;> simp +decide [toAbsoluteSegment]
  · right
    have hfix : (toAbsoluteSegment st ⟨c, ps⟩).1 = ⟨c, ps⟩ :=
      toAbsoluteSegment_fst_id st ⟨c, ps⟩ (Or.inr hv)
    rw [hfix]
    exact hv

/-- Re-applying the absolute converter to any of its outputs changes
nothing, whatever the states involved. -/
theorem toAbsoluteSegment_idem (st' st : AbsState) (s : Seg) :
    (toAbsoluteSegment st' ((toAbsoluteSegment st s).1)).1 =
      (toAbsoluteSegment st s).1 :=
  toAbsoluteSegment_fst_id st' _ (toAbsoluteSegment_out_class st s)

/-- A list of stable segments passes through the absolute loop unchanged. -/
theorem toAbsoluteLoop_fixed (l : List Seg) (st : AbsState)
    (h : ∀ o ∈ l, ∀ st0, (toAbsoluteSegment st0 o).1 = o) :
    toAbsoluteLoop st l = l := by
  induction l generalizing st with
  | nil => rfl
  | cons s rest ih =>
    rw [toAbsoluteLoop]
    rw [h s (List.mem_cons_self _ _) st]
    rw [ih _ (fun o ho st0 => h o (List.mem_cons_of_mem _ ho) st0)]

/-- Every member of the absolute loop's output is one of its step
outputs. -/
theorem toAbsoluteLoop_mem (l : List Seg) (st : AbsState) (o : Seg)
    (ho : o ∈ toAbsoluteLoop st l) :
    ∃ st0 s, s ∈ l ∧ o = (toAbsoluteSegment st0 s).1 := by
  induction l generalizing st with
  | nil => simp [toAbsoluteLoop] at ho
  | cons s rest ih =>
    rw [toAbsoluteLoop] at ho
    rcases List.mem_cons.mp ho with h | h
    · exact ⟨st, s, List.mem_cons_self _ _, h⟩
    · rcases ih _ h with ⟨st0, s0, hs0, he⟩
      exact ⟨st0, s0, List.mem_cons_of_mem _ hs0, he⟩

/-- Members of `pathToAbsolute`'s output are stable under the absolute
converter. -/
theorem pathToAbsolute_mem_stable (p : Path) (o : Seg)
    (ho : o ∈ pathToAbsolute p) :
    ∀ st0, (toAbsoluteSegment st0 o).1 = o := by
  rcases toAbsoluteLoop_mem p _ o ho with ⟨st0, s, _, he⟩
  intro st1
  rw [he]
  exact toAbsoluteSegment_idem st1 st0 s

/-- A segment that is not a shorthand or axis line passes through the
normalizer unchanged. -/
theorem normalizeSegment_fst_id (st : NormState) (o : Seg)
    (h : o.cmd ≠ 'H' ∧ o.cmd ≠ 'V' ∧ o.cmd ≠ 'S' ∧ o.cmd ≠ 'T') :
    normalizeSegment st o = o := by
  unfold normalizeSegment
  rw [if_neg h.1, if_neg h.2.1, if_neg h.2.2.1, if_neg h.2.2.2]

/-- The normalizer's output never carries a shorthand or axis command. -/
theorem normalizeSegment_out_avoid (st : NormState) (s : Seg) :
    (normalizeSegment st s).cmd ≠ 'H' ∧ (normalizeSegment st s).cmd ≠ 'V' ∧
      (normalizeSegment st s).cmd ≠ 'S' ∧ (normalizeSegment st s).cmd ≠ 'T' := by
  unfold normalizeSegment
  split_ifs <;> refine ⟨?_, ?_, ?_, ?_⟩ <;> first | assumption | simp +decide

/-- The normalizer preserves stability under the absolute converter. -/
theorem normalizeSegment_preserves_stable (st : NormState) (s : Seg)
    (h : ∀ st0, (toAbsoluteSegment st0 s).1 = s) :
    ∀ st0, (toAbsoluteSegment st0 (normalizeSegment st s)).1 =
      normalizeSegment st s := by
  intro st0
  unfold normalizeSegment
  split_ifs
  all_goals first
    | exact h st0
    | exact toAbsoluteSegment_fst_id st0 _ (Or.inl (by simp +decide))

/-- A list of non-shorthand segments passes through the normalizer loop
unchanged. -/
theorem normalizeLoop_fixed (l : List Seg) (st : NormState)
    (h : ∀ o ∈ l, o.cmd ≠ 'H' ∧ o.cmd ≠ 'V' ∧ o.cmd ≠ 'S' ∧ o.cmd ≠ 'T') :
    normalizeLoop st l = l := by
  induction l generalizing st with
  | nil => rfl
  | cons s rest ih =>
    rw [normalizeLoop]
    rw [normalizeSegment_fst_id st s (h s (List.mem_cons_self _ _))]
    rw [ih _ (fun o ho => h o (List.mem_cons_of_mem _ ho))]

/-- Every member of the normalizer loop's output is one of its step
outputs. -/
theorem normalizeLoop_mem (l : List Seg) (st : NormState) (o : Seg)
    (ho : o ∈ normalizeLoop st l) :
    ∃ st0 s, s ∈ l ∧ o = normalizeSegment st0 s := by
  induction l generalizing st with
  | nil => simp [normalizeLoop] at ho
  | cons s rest ih =>
    rw [normalizeLoop] at ho
    rcases List.mem_cons.mp ho with h | h
    · exact ⟨st, s, List.mem_cons_self _ _, h⟩
    · rcases ih _ h with ⟨st0, s0, hs0, he⟩
      exact ⟨st0, s0, List.mem_cons_of_mem _ hs0, he⟩

/-- C6 part 1: `pathToAbsolute` is idempotent. -/
theorem pathToAbsolute_idem (p : Path) :
    pathToAbsolute (pathToAbsolute p) = pathToAbsolute p :=
  toAbsoluteLoop_fixed _ _ (fun o ho => pathToAbsolute_mem_stable p o ho)

/-- The normalizer's output commands are among the normal-form letters, or
not commands at all. -/
theorem normalizeSegment_out_class (st : NormState) (s : Seg)
    (h : s.cmd ∈ (['M', 'L', 'C', 'S', 'Q', 'T', 'H', 'V', 'A', 'Z'] :
        List Char) ∨ ¬ validCmd s.cmd) :
    (normalizeSegment st s).cmd ∈
        (['M', 'L', 'C', 'Q', 'A', 'Z'] : List Char) ∨
      ¬ validCmd (normalizeSegment st s).cmd := by
  unfold normalizeSegment
  split_ifs
  all_goals try (refine Or.inl ?_ ; simp +decide ; done)
  rcases h with h | h
  · left
    simp only [List.mem_cons, List.not_mem_nil, or_false] at h
    rcases h with h | h | h | h | h | h | h | h | h | h <;>
      first
        | (exact absurd h (by assumption))
        | (rw [h]; decide)
  · exact Or.inr h

/-- Members of `normalizePath`'s output avoid shorthand commands and are
stable under the absolute converter. -/
theorem normalizePath_mem (p : Path) (o : Seg) (ho : o ∈ normalizePath p) :
    (o.cmd ≠ 'H' ∧ o.cmd ≠ 'V' ∧ o.cmd ≠ 'S' ∧ o.cmd ≠ 'T') ∧
      (∀ st0, (toAbsoluteSegment st0 o).1 = o) ∧
      (o.cmd ∈ (['M', 'L', 'C', 'Q', 'A', 'Z'] : List Char) ∨
        ¬ validCmd o.cmd) := by
  rcases normalizeLoop_mem _ _ o ho with ⟨st0, s, hs, he⟩
  subst he
  refine ⟨normalizeSegment_out_avoid st0 s, ?_, ?_⟩
  · exact normalizeSegment_preserves_stable st0 s
      (pathToAbsolute_mem_stable p s hs)
  · refine normalizeSegment_out_class st0 s ?_
    rcases toAbsoluteLoop_mem p _ s hs with ⟨st1, s1, _, he1⟩
    subst he1
    exact toAbsoluteSegment_out_class st1 s1

/-- C6 part 2: `normalizePath` is idempotent. -/
theorem normalizePath_idem (p : Path) :
    normalizePath (normalizePath p) = normalizePath p := by
  unfold normalizePath
  rw [show pathToAbsolute (normalizeLoop ⟨0, 0, 0, 0, 0, 0, 0, 0, 'M'⟩
      (pathToAbsolute p)) = normalizeLoop ⟨0, 0, 0, 0, 0, 0, 0, 0, 'M'⟩
      (pathToAbsolute p) from
    toAbsoluteLoop_fixed _ _
      (fun o ho => (normalizePath_mem p o ho).2.1)]
  exact normalizeLoop_fixed _ _ (fun o ho => (normalizePath_mem p o ho).1)

/-- A command in curve form (or no command at all) avoids the shorthand
and axis letters. -/
theorem curveClass_avoid (c : Char)
    (h : c ∈ (['M', 'C', 'Z'] : List Char) ∨ ¬ validCmd c) :
    c ≠ 'H' ∧ c ≠ 'V' ∧ c ≠ 'S' ∧ c ≠ 'T' := by
  rcases h with h | h
  · simp only [List.mem_cons, List.not_mem_nil, or_false] at h
    rcases h with h | h | h <;> subst h <;> refine ⟨?_, ?_, ?_, ?_⟩ <;> decide
  · refine ⟨?_, ?_, ?_, ?_⟩ <;> rintro rfl <;> exact h (by decide)

/-- A segment already in curve form (or no command at all) passes through
the curve converter unchanged. -/
theorem segmentToCurve_fst_id
    (a2c : ℚ → ℚ → ℚ → ℚ → ℚ → ℚ → ℚ → ℚ → ℚ → List ℚ)
    (st : CurveState) (s : Seg)
    (h : s.cmd ∈ (['M', 'C', 'Z'] : List Char) ∨ ¬ validCmd s.cmd) :
    (segmentToCurve a2c st s).1 = [s] := by
  rcases h with h | h
  · simp only [List.mem_cons, List.not_mem_nil, or_false] at h
    rcases h with h | h | h <;> simp +decide [segmentToCurve, h]
  · simp only [validCmd, List.mem_cons, List.not_mem_nil, or_false,
      not_or] at h
    obtain ⟨hM, _, hL, _, _, _, _, _, hC, _, _, _, hQ, _, _, _, hA, _, hZ, _⟩ := h
    simp [segmentToCurve, hM, hL, hQ, hC, hA, hZ]

/-- Outputs of the curve converter on a stable normal-form segment are
stable and in curve form (or no command at all). -/
theorem segmentToCurve_out
    (a2c : ℚ → ℚ → ℚ → ℚ → ℚ → ℚ → ℚ → ℚ → ℚ → List ℚ)
    (st : CurveState) (s : Seg)
    (hstable : ∀ st0, (toAbsoluteSegment st0 s).1 = s)
    (hclass : s.cmd ∈ (['M', 'L', 'C', 'Q', 'A', 'Z'] : List Char) ∨
      ¬ validCmd s.cmd) :
    ∀ o ∈ (segmentToCurve a2c st s).1,
      (∀ st0, (toAbsoluteSegment st0 o).1 = o) ∧
      (o.cmd ∈ (['M', 'C', 'Z'] : List Char) ∨ ¬ validCmd o.cmd) := by
  intro o ho
  unfold segmentToCurve at ho
  split_ifs at ho with hM hL hQ hC hA hZ
  · simp only [List.mem_singleton] at ho
    subst ho
    exact ⟨hstable, Or.inl (by rw [hM]; decide)⟩
  · simp only [List.mem_singleton] at ho
    subst ho
    refine ⟨fun st0 => toAbsoluteSegment_fst_id st0 _ (Or.inl (by simp +decide)),
      Or.inl (by simp +decide)⟩
  · simp only [List.mem_singleton] at ho
    subst ho
    refine ⟨fun st0 => toAbsoluteSegment_fst_id st0 _ (Or.inl (by simp +decide)),
      Or.inl (by simp +decide)⟩
  · simp only [List.mem_singleton] at ho
    subst ho
    exact ⟨hstable, Or.inl (by rw [hC]; decide)⟩
  · rcases List.mem_map.mp ho with ⟨c, _, rfl⟩
    refine ⟨fun st0 => toAbsoluteSegment_fst_id st0 _ (Or.inl (by simp +decide)),
      Or.inl (by simp +decide)⟩
  · simp only [List.mem_singleton] at ho
    subst ho
    exact ⟨hstable, Or.inl (by rw [hZ]; decide)⟩
  · simp only [List.mem_singleton] at ho
    subst ho
    refine ⟨hstable, Or.inr ?_⟩
    rcases hclass with h | h
    · simp only [List.mem_cons, List.not_mem_nil, or_false] at h
      rcases h with h | h | h | h | h | h <;> exact absurd h (by assumption)
    · exact h

/-- A list of curve-form segments passes through the curve loop
unchanged. -/
theorem curveLoop_fixed (a2c : ℚ → ℚ → ℚ → ℚ → ℚ → ℚ → ℚ → ℚ → ℚ → List ℚ)
    (l : List Seg) (st : CurveState)
    (h : ∀ o ∈ l, o.cmd ∈ (['M', 'C', 'Z'] : List Char) ∨ ¬ validCmd o.cmd) :
    curveLoop a2c st l = l := by
  induction l generalizing st with
  | nil => rfl
  | cons s rest ih =>
    rw [curveLoop]
    rw [segmentToCurve_fst_id a2c st s (h s (List.mem_cons_self _ _))]
    rw [ih _ (fun o ho => h o (List.mem_cons_of_mem _ ho))]
    rfl

/-- Every member of the curve loop's output is an output of one step. -/
theorem curveLoop_mem (a2c : ℚ → ℚ → ℚ → ℚ → ℚ → ℚ → ℚ → ℚ → ℚ → List ℚ)
    (l : List Seg) (st : CurveState) (o : Seg)
    (ho : o ∈ curveLoop a2c st l) :
    ∃ st0 s, s ∈ l ∧ o ∈ (segmentToCurve a2c st0 s).1 := by
  induction l generalizing st with
  | nil => simp [curveLoop] at ho
  | cons s rest ih =>
    rw [curveLoop] at ho
    rcases List.mem_append.mp ho with h | h
    · exact ⟨st, s, List.mem_cons_self _ _, h⟩
    · rcases ih _ h with ⟨st0, s0, hs0, he⟩
      exact ⟨st0, s0, List.mem_cons_of_mem _ hs0, he⟩

/-- The redundant-close scan only removes segments. -/
theorem dropZLoop_mem (l : List Seg) (st : CloseState) (o : Seg)
    (ho : o ∈ dropZLoop st l) : o ∈ l := by
  induction l generalizing st with
  | nil => simpa [dropZLoop] using ho
  | cons s rest ih =>
    rw [dropZLoop] at ho
    split_ifs at ho
    · exact List.mem_cons_of_mem _ (ih _ ho)
    · rcases List.mem_cons.mp ho with h | h
      · exact h ▸ List.mem_cons_self _ _
      · exact List.mem_cons_of_mem _ (ih _ h)
    · rcases List.mem_cons.mp ho with h | h
      · exact h ▸ List.mem_cons_self _ _
      · exact List.mem_cons_of_mem _ (ih _ h)
    · rcases List.mem_cons.mp ho with h | h
      · exact h ▸ List.mem_cons_self _ _
      · exact List.mem_cons_of_mem _ (ih _ h)

/-- Dropping a redundant close does not move the scan state, so the
redundant-close scan is idempotent. -/
theorem dropZLoop_idem (l : List Seg) (st : CloseState) :
    dropZLoop st (dropZLoop st l) = dropZLoop st l := by
  induction l generalizing st with
  | nil => rfl
  | cons s rest ih =>
    rw [dropZLoop]
    split_ifs with hz hc hm
    · have hst : (⟨st.sx, st.sy, st.sx, st.sy, st.has⟩ : CloseState) = st := by
        obtain ⟨cx, cy, sx, sy, has⟩ := st
        simp only at hc
        simp [hc.1, hc.2.1]
      rw [hst]
      exact ih st
    · rw [dropZLoop, if_pos hz, if_neg hc]
      simp only [ih]
    · rw [dropZLoop, if_neg hz, if_pos hm]
      simp only [ih]
    · rw [dropZLoop, if_neg hz, if_neg hm]
      simp only [ih]

/-- Members of `pathToCurve`'s output are stable under the absolute
converter and in curve form (or no command at all). -/
theorem pathToCurve_mem (a2c : ℚ → ℚ → ℚ → ℚ → ℚ → ℚ → ℚ → ℚ → ℚ → List ℚ)
    (p : Path) (o : Seg) (ho : o ∈ pathToCurve a2c p) :
    (∀ st0, (toAbsoluteSegment st0 o).1 = o) ∧
      (o.cmd ∈ (['M', 'C', 'Z'] : List Char) ∨ ¬ validCmd o.cmd) := by
  unfold pathToCurve at ho
  have ho2 := dropZLoop_mem _ _ o ho
  rcases curveLoop_mem a2c _ _ o ho2 with ⟨st0, s, hs, hmem⟩
  have hm := normalizePath_mem p s hs
  exact segmentToCurve_out a2c st0 s hm.2.1 hm.2.2 o hmem

/-- C6 part 3: `pathToCurve` is idempotent, whatever arc-to-cubic
collaborator is plugged in. -/
theorem pathToCurve_idem (a2c : ℚ → ℚ → ℚ → ℚ → ℚ → ℚ → ℚ → ℚ → ℚ → List ℚ)
    (p : Path) : pathToCurve a2c (pathToCurve a2c p) = pathToCurve a2c p := by
  have hnorm : normalizePath (pathToCurve a2c p) = pathToCurve a2c p := by
    unfold normalizePath
    rw [show pathToAbsolute (pathToCurve a2c p) = pathToCurve a2c p from
      toAbsoluteLoop_fixed _ _
        (fun o ho => (pathToCurve_mem a2c p o ho).1)]
    exact normalizeLoop_fixed _ _
      (fun o ho => curveClass_avoid o.cmd (pathToCurve_mem a2c p o ho).2)
  have hcurve : curveLoop a2c ⟨0, 0, 0, 0⟩ (pathToCurve a2c p) =
      pathToCurve a2c p :=
    curveLoop_fixed a2c _ _ (fun o ho => (pathToCurve_mem a2c p o ho).2)
  show dropZLoop ⟨0, 0, 0, 0, false⟩
      (curveLoop a2c ⟨0, 0, 0, 0⟩ (normalizePath (pathToCurve a2c p))) =
    pathToCurve a2c p
  rw [hnorm, hcurve]
  unfold pathToCurve
  exact dropZLoop_idem _ _

/-- C6: `pathToAbsolute` (toAbsolute), `normalizePath` (normalize) and
`pathToCurve` (toCurve) are each idempotent: applying the function to its
own output returns that output unchanged, for every path (and, for
`pathToCurve`, every arc-to-cubic collaborator). -/
theorem converters_idempotent (p : Path) :
    pathToAbsolute (pathToAbsolute p) = pathToAbsolute p ∧
    normalizePath (normalizePath p) = normalizePath p ∧
    ∀ a2c : ℚ → ℚ → ℚ → ℚ → ℚ → ℚ → ℚ → ℚ → ℚ → List ℚ,
      pathToCurve a2c (pathToCurve a2c p) = pathToCurve a2c p :=
  ⟨pathToAbsolute_idem p, normalizePath_idem p,
    fun a2c => pathToCurve_idem a2c p⟩

/-- The parameter scanner returns exactly as many values as requested. -/
theorem scanNParams_length (isArc : Bool) (n : Nat) :
    ∀ (idx : Nat) (cs : List Char) (ps : List ℚ) (cs' : List Char),
      scanNParams isArc n idx cs = some (ps, cs') → ps.length = n := by
  induction n with
  | zero =>
    intro idx cs ps cs' h
    simp only [scanNParams, Option.some.injEq, Prod.mk.injEq] at h
    rw [← h.1]
    rfl
  | succ n ih =>
    intro idx cs ps cs' h
    rw [scanNParams] at h
    split at h
    · exact Option.noConfusion h
    · split at h
      · exact Option.noConfusion h
      · rename_i v cs2 hv vs cs3 hrec
        simp only [Option.some.injEq, Prod.mk.injEq] at h
        rw [← h.1]
        simp only [List.length_cons]
        rw [ih _ _ _ _ hrec]

/-- Arity invariant of one scanner dispatch: on success, every produced
segment's parameter count equals its command's fixed arity, provided the
continuation respects the invariant. -/
theorem scanStep_arity (next : Option Char → List Char → Option (List Seg))
    (hnext : ∀ p c s, next p c = some s →
      ∀ g ∈ s, g.params.length = paramsCount g.cmd.toLower)
    (prev : Option Char) (cs : List Char) (segs : List Seg)
    (h : scanStep next prev cs = some segs) :
    ∀ g ∈ segs, g.params.length = paramsCount g.cmd.toLower := by
  unfold scanStep at h
  repeat' split at h
  all_goals first
    | exact Option.noConfusion h
    | (simp only [Option.some.injEq] at h
       rw [← h]
       intro g hg
       first
         | exact absurd hg (List.not_mem_nil g)
         | (rcases List.mem_cons.mp hg with hg | hg
            · subst hg
              exact scanNParams_length _ _ _ _ _ _ (by assumption)
            · exact hnext _ _ _ (by assumption) g hg))

/-- Arity invariant of the scanner loop. -/
theorem scanSegs_arity (fuel : Nat) :
    ∀ (prev : Option Char) (cs : List Char) (segs : List Seg),
      scanSegs fuel prev cs = some segs →
      ∀ g ∈ segs, g.params.length = paramsCount g.cmd.toLower := by
  induction fuel with
  | zero =>
    intro prev cs segs h
    exact Option.noConfusion h
  | succ fuel ih =>
    intro prev cs segs h
    exact scanStep_arity (scanSegs fuel) ih prev cs segs h

/-- C7: for every input text on which parsing succeeds, every segment of
the resulting path has a parameter count equal to its command's fixed
arity (A=7, C=6, S/Q=4, L/M/T=2, H/V=1, Z=0, keyed by the lowercase
letter as in `src/parser/paramsCount`). -/
theorem parsePathString_arity (s : String) (path : Path)
    (h : parsePathString s = some path) :
    ∀ g ∈ path, g.params.length = paramsCount g.cmd.toLower :=
  scanSegs_arity _ _ _ _ h

/-- C7 witness: a concrete parse with mixed commands. -/
theorem parsePathString_arity_witness :
    parsePathString "M0 0L3 4" = some [⟨'M', [0, 0]⟩, ⟨'L', [3, 4]⟩] ∧
    ∀ g ∈ ([⟨'M', [0, 0]⟩, ⟨'L', [3, 4]⟩] : Path),
      g.params.length = paramsCount g.cmd.toLower := by
  have hev : parsePathString "M0 0L3 4" =
      some [⟨'M', [0, 0]⟩, ⟨'L', [3, 4]⟩] := by
    show scanSegs 9 none ['M', '0', ' ', '0', 'L', '3', ' ', '4'] = _
    simp +decide [scanSegs, scanStep, scanNParams, scanNumber, scanExpOpt,
      scanFlagV, isSep, isDigitStartCh, digitsToNat, qpow10, validCmd,
      paramsCount]
  exact ⟨hev, parsePathString_arity _ _ hev⟩

/-- Adding the running point preserves the value count. -/
theorem addPairXY_length (x y : ℚ) : ∀ l : List ℚ,
    (addPairXY x y l).length = l.length
  | [] => rfl
  | [a] => rfl
  | a :: b :: rest => by
    simp only [addPairXY, List.length_cons]
    rw [addPairXY_length x y rest]

/-- Subtracting the running point undoes adding it. -/
theorem subPairXY_addPairXY (x y : ℚ) : ∀ l : List ℚ,
    subPairXY x y (addPairXY x y l) = l
  | [] => rfl
  | [a] => rfl
  | a :: b :: rest => by
    simp only [addPairXY, subPairXY, add_sub_cancel_right]
    rw [subPairXY_addPairXY x y rest]

/-- Mapping a subtraction undoes mapping the addition. -/
theorem map_sub_map_add (x : ℚ) (l : List ℚ) :
    List.map ((fun v => v - x) ∘ fun v => v + x) l = l := by
  have hc : ((fun v : ℚ => v - x) ∘ fun v => v + x) = fun v : ℚ => v := by
    funext v
    simp
  rw [hc]
  exact List.map_id l

/-- The relative encoding inverts the absolute encoding: a relative
segment is reproduced exactly (in rational arithmetic) by encoding its
absolute form relative to the same running point. -/
theorem relSegment_inverse (x y mx my : ℚ) (s : Seg)
    (h : s.cmd ∈ (['m', 'l', 'h', 'v', 'c', 's', 'q', 't', 'a', 'z'] :
      List Char)) :
    relSegment x y ((toAbsoluteSegment ⟨x, y, mx, my⟩ s).1) = s := by
  obtain ⟨c, ps⟩ := s
  simp only [List.mem_cons, List.not_mem_nil, or_false] at h
  rcases h with h | h | h | h | h | h | h | h | h | h <;> subst h
  · simp +decide [toAbsoluteSegment, relSegment, subPairXY_addPairXY]
  · simp +decide [toAbsoluteSegment, relSegment, subPairXY_addPairXY]
  · simp +decide [toAbsoluteSegment, relSegment, map_sub_map_add]
  · simp +decide [toAbsoluteSegment, relSegment, map_sub_map_add]
  · simp +decide [toAbsoluteSegment, relSegment, subPairXY_addPairXY]
  · simp +decide [toAbsoluteSegment, relSegment, subPairXY_addPairXY]
  · simp +decide [toAbsoluteSegment, relSegment, subPairXY_addPairXY]
  · simp +decide [toAbsoluteSegment, relSegment, subPairXY_addPairXY]
  · have hP : (toAbsoluteSegment (⟨x, y, mx, my⟩ : AbsState) ⟨'a', ps⟩).1 =
        ⟨'A', ps.take (ps.length - 2) ++
          addPairXY x y (ps.drop (ps.length - 2))⟩ := by
      simp +decide [toAbsoluteSegment]
    rw [hP]
    have hlen : (ps.take (ps.length - 2) ++
        addPairXY x y (ps.drop (ps.length - 2))).length = ps.length := by
      rw [List.length_append, List.length_take, addPairXY_length,
        List.length_drop]
      omega
    have htk : (ps.take (ps.length - 2)).length = ps.length - 2 := by
      rw [List.length_take]
      omega
    simp +decide only [relSegment, if_true, if_false]
    rw [hlen]
    rw [List.take_left' htk, List.drop_left' htk]
    rw [subPairXY_addPairXY, List.take_append_drop]
  · simp +decide [toAbsoluteSegment, relSegment]

/-- `shorterSeg` never renders longer than its left argument. -/
theorem shorterSeg_le_left (b c : Seg) :
    (segStr (shorterSeg b c)).length ≤ (segStr b).length := by
  unfold shorterSeg
  split
  · omega
  · exact le_refl _

/-- `shorterSeg` never renders longer than its right argument. -/
theorem shorterSeg_le_right (b c : Seg) :
    (segStr (shorterSeg b c)).length ≤ (segStr c).length := by
  unfold shorterSeg
  split
  · exact le_refl _
  · omega

/-- The chosen candidate renders no longer than the starting candidate. -/
theorem chooseSeg_le_head (cands : List Seg) : ∀ b : Seg,
    (segStr (chooseSeg b cands)).length ≤ (segStr b).length := by
  induction cands with
  | nil => intro b; exact le_refl _
  | cons c cs ih =>
    intro b
    exact le_trans (ih (shorterSeg b c)) (shorterSeg_le_left b c)

/-- The chosen candidate renders no longer than any listed candidate. -/
theorem chooseSeg_le_mem (cands : List Seg) : ∀ (b c : Seg), c ∈ cands →
    (segStr (chooseSeg b cands)).length ≤ (segStr c).length := by
  induction cands with
  | nil =>
    intro b c hc
    exact absurd hc (List.not_mem_nil c)
  | cons c0 cs ih =>
    intro b c hc
    rcases List.mem_cons.mp hc with hc | hc
    · subst hc
      exact le_trans (chooseSeg_le_head cs (shorterSeg b c))
        (shorterSeg_le_right b c)
    · exact ih (shorterSeg b c0) c hc

/-- The optimizer's per-segment choice never renders longer than the
original segment: the original's encoding (absolute or relative, matching
its case) is always among the candidates. -/
theorem optStep_le (st : OptState) (s : Seg) :
    (segStr (optStep st s).1).length ≤ (segStr s).length := by
  have hchosen : (optStep st s).1 =
      chooseSeg (relSegment st.x st.y
          ((toAbsoluteSegment ⟨st.x, st.y, st.mx, st.my⟩ s).1))
        ((toAbsoluteSegment ⟨st.x, st.y, st.mx, st.my⟩ s).1 ::
          shorthandCands st
            ((toAbsoluteSegment ⟨st.x, st.y, st.mx, st.my⟩ s).1)) := rfl
  by_cases hv : validCmd s.cmd
  · simp only [validCmd, List.mem_cons, List.not_mem_nil, or_false] at hv
    rcases hv with hv | hv | hv | hv | hv | hv | hv | hv | hv | hv |
      hv | hv | hv | hv | hv | hv | hv | hv | hv | hv
    all_goals first
      | (have habs : (toAbsoluteSegment ⟨st.x, st.y, st.mx, st.my⟩ s).1 = s :=
          toAbsoluteSegment_fst_id _ s (Or.inl (by rw [hv]; decide))
         calc (segStr (optStep st s).1).length
             ≤ (segStr (toAbsoluteSegment
                 ⟨st.x, st.y, st.mx, st.my⟩ s).1).length := by
               rw [hchosen]
               exact chooseSeg_le_mem _ _ _ (List.mem_cons_self _ _)
           _ = (segStr s).length := by rw [habs])
      | (have hrel : relSegment st.x st.y
            ((toAbsoluteSegment ⟨st.x, st.y, st.mx, st.my⟩ s).1) = s :=
          relSegment_inverse st.x st.y st.mx st.my s (by rw [hv]; decide)
         calc (segStr (optStep st s).1).length
             ≤ (segStr (relSegment st.x st.y
                 ((toAbsoluteSegment ⟨st.x, st.y, st.mx, st.my⟩ s).1))).length := by
               rw [hchosen]
               exact chooseSeg_le_head _ _
           _ = (segStr s).length := by rw [hrel])
  · have habs : (toAbsoluteSegment ⟨st.x, st.y, st.mx, st.my⟩ s).1 = s :=
      toAbsoluteSegment_fst_id _ s (Or.inr hv)
    calc (segStr (optStep st s).1).length
        ≤ (segStr (toAbsoluteSegment
            ⟨st.x, st.y, st.mx, st.my⟩ s).1).length := by
          rw [hchosen]
          exact chooseSeg_le_mem _ _ _ (List.mem_cons_self _ _)
      _ = (segStr s).length := by rw [habs]

/-- The optimizer loop never renders longer than the original list. -/
theorem optimizeLoop_le (l : List Seg) : ∀ st : OptState,
    (pathToString (optimizeLoop st l)).length ≤ (pathToString l).length := by
  induction l with
  | nil => intro st; exact le_refl _
  | cons s rest ih =>
    intro st
    show (segStr (optStep st s).1 ++
        pathToString (optimizeLoop (optStep st s).2 rest)).length ≤
      (segStr s ++ pathToString rest).length
    rw [String.length_append, String.length_append]
    exact Nat.add_le_add (optStep_le st s) (ih _)

/-- C8: serializing the optimized path never yields a longer string than
serializing the path itself, under the default rounding. -/
theorem optimizePath_never_longer (p : Path) :
    (pathToString (optimizePath p)).length ≤ (pathToString p).length :=
  optimizeLoop_le p ⟨0, 0, 0, 0, 0, 0, 0, 0, 'M'⟩

end SvgPath
